import Mathlib

/-!
Verification development for the country-directory renderer
(`src/renderer.py`): a shallow embedding of `TableBuilder` (fixed-width
bordered table layout on top of Python's `textwrap.wrap`) and of the
`Renderer` formatting helpers, together with theorems settling the
specification claims.

Text is modelled as `List Char` (Python strings are sequences of unicode
code points; `len` counts code points).  All `async` methods in the source
perform no real concurrency, so they are modelled as pure functions;
mutation of `self.table_lines` is modelled by explicit state passing.
-/

set_option autoImplicit false

/-- The whitespace class textwrap's chunking machinery works with:
`string.whitespace` = `' \t\n\x0b\x0c\r'`.  Both `_munge_whitespace`'s
translate table and the character class `wordsep_re` interpolates (textwrap
builds the regex from `re.escape(_whitespace)`, not `\s`) use exactly these
six ASCII characters. -/
def pySpace (c : Char) : Bool :=
  c = ' ' || c = '\t' || c = '\n' || c = Char.ofNat 11 || c = Char.ofNat 12 || c = '\r'

/-- Python `str.isspace()` / `str.strip()`'s whitespace: the 29 code points
U+0009-U+000D, U+001C-U+001F, U+0020, U+0085, U+00A0, U+1680,
U+2000-U+200A, U+2028, U+2029, U+202F, U+205F and U+3000.  This is the class
the `drop_whitespace` tests (`chunk.strip() == ''`) use, strictly wider than
`pySpace`. -/
def pyIsSpace (c : Char) : Bool :=
  (9 ≤ c.toNat && c.toNat ≤ 13) || (28 ≤ c.toNat && c.toNat ≤ 31) || c.toNat = 32 ||
    c.toNat = 133 || c.toNat = 160 || c.toNat = 5760 ||
    (8192 ≤ c.toNat && c.toNat ≤ 8202) || c.toNat = 8232 || c.toNat = 8233 ||
    c.toNat = 8239 || c.toNat = 8287 || c.toNat = 12288

/-- `str.expandtabs(8)`: each tab becomes spaces up to the next multiple of 8;
the column counter resets after `'\n'` and `'\r'`. -/
def expandtabsGo (col : Nat) : List Char → List Char
  | [] => []
  | c :: rest =>
    if c = '\t' then
      List.replicate (8 - col % 8) ' ' ++ expandtabsGo (col + (8 - col % 8)) rest
    else if c = '\n' ∨ c = '\r' then
      c :: expandtabsGo 0 rest
    else
      c :: expandtabsGo (col + 1) rest

/-- `TextWrapper._munge_whitespace`: `expand_tabs` then `replace_whitespace`
(each of `' \t\n\x0b\x0c\r'` translated to `' '`). -/
def munge (text : List Char) : List Char :=
  (expandtabsGo 0 text).map (fun c => if pySpace c then ' ' else c)

/-- `TextWrapper._split`: break text into an alternating sequence of maximal
whitespace and non-whitespace runs (empty strings filtered out).  This is
exactly what `wordsep_re.split` produces for text containing no `'-'`; the
extra break points the regex adds inside hyphenated words are not modelled,
and theorems that depend on the splitting carry a hyphen-free hypothesis. -/
def splitRuns : List Char → List (List Char)
  | [] => []
  | c :: rest =>
    match splitRuns rest with
    | [] => [[c]]
    | [] :: rs => [c] :: [] :: rs
    | (x :: xs) :: rs =>
      if pySpace c = pySpace x then (c :: x :: xs) :: rs
      else [c] :: (x :: xs) :: rs

/-- Total character length of a list of chunks. -/
def sumLen (cs : List (List Char)) : Nat := (cs.map List.length).sum

/-- The maximal non-whitespace runs of a text with respect to textwrap's
ASCII whitespace class — the word chunks its splitter produces.  For text
containing none of the non-ASCII `pyIsSpace` code points this is exactly
Python `str.split()`. -/
def pyWords (text : List Char) : List (List Char) :=
  (splitRuns text).filter (fun c => !c.all pySpace)

/-- The inner greedy loop of `TextWrapper._wrap_chunks`: pop chunks onto the
current line while they fit in `width`.  Returns (taken, remaining). -/
def greedy (width : Nat) (curLen : Nat) : List (List Char) → List (List Char) × List (List Char)
  | [] => ([], [])
  | c :: rest =>
    if curLen + c.length ≤ width then
      let p := greedy width (curLen + c.length) rest
      (c :: p.1, p.2)
    else ([], c :: rest)

/-- `str.rfind('-', 0, stop)`: the largest index `i < stop` with
`chunk[i] = '-'`, if any. -/
def rfindHyphen (chunk : List Char) (stop : Nat) : Option Nat :=
  (((chunk.take stop).enum.reverse.find? (fun p => p.2 = '-')).map (fun p => p.1))

/-- The split point chosen by `TextWrapper._handle_long_word` for a chunk that
does not fit (`break_long_words` with the `break_on_hyphens` refinement):
break after the last hyphen before `space_left` when the prefix before it has
a non-hyphen character, else break at `space_left`. -/
def longWordEnd (chunk : List Char) (spaceLeft : Nat) : Nat :=
  match rfindHyphen chunk spaceLeft with
  | some h => if 0 < h ∧ (chunk.take h).any (fun c => c ≠ '-') then h + 1 else spaceLeft
  | none => spaceLeft

/-- `drop_whitespace` at the end of a line: delete the final chunk of the
current line when it strips to nothing (`cur_line[-1].strip() == ''`,
tested with Python's unicode whitespace class). -/
def dropTrailingWs (curLine : List (List Char)) : List (List Char) :=
  match curLine.getLast? with
  | some last => if last.all pyIsSpace then curLine.dropLast else curLine
  | none => curLine

/-- One iteration of `_wrap_chunks` after the leading-whitespace drop: greedily
fill a line, split an oversized next chunk (`_handle_long_word`), drop a
trailing whitespace chunk.  Returns the chunks of the built line and the
remaining chunks. -/
def buildLine (width : Nat) (chunks : List (List Char)) : List (List Char) × List (List Char) :=
  let p := greedy width 0 chunks
  match p.2 with
  | [] => (dropTrailingWs p.1, [])
  | r :: rs =>
    if width < r.length then
      let sl := width - sumLen p.1
      let e := longWordEnd r sl
      (dropTrailingWs (p.1 ++ [r.take e]), (r.drop e) :: rs)
    else (dropTrailingWs p.1, r :: rs)

/-- The outer loop of `TextWrapper._wrap_chunks`.  `hasLines` records whether
any line has been emitted (Python's `lines` being non-empty), which gates the
deletion of a leading whitespace chunk (`chunks[-1].strip() == ''`, again the
unicode whitespace class).  Structural recursion on `fuel`; the
caller supplies enough fuel for the loop to run to completion whenever
`width ≥ 1` (Python raises `ValueError` for `width ≤ 0` instead). -/
def wrapGo (width : Nat) : Nat → Bool → List (List Char) → List (List Char)
  | 0, _, _ => []
  | _ + 1, _, [] => []
  | fuel + 1, hasLines, c :: rest =>
    let chunks1 := if hasLines && c.all pyIsSpace then rest else c :: rest
    let p := buildLine width chunks1
    if p.1.isEmpty then wrapGo width fuel hasLines p.2
    else p.1.flatten :: wrapGo width fuel true p.2

/-- `textwrap.wrap(text, width)` with the default options
(`expand_tabs`, `replace_whitespace`, `drop_whitespace`, `break_long_words`,
`break_on_hyphens`; see the caveats on `splitRuns` and `wrapGo`). -/
def pyWrap (text : List Char) (width : Nat) : List (List Char) :=
  let chunks := splitRuns (munge text)
  wrapGo width (sumLen chunks + chunks.length + 1) false chunks

/-! ## TableBuilder -/

/-- `TableBuilder`: the configured total width and the accumulated lines. -/
structure TableBuilder where
  table_size : Nat
  table_lines : List (List Char)
  deriving DecidableEq, Repr

/-- The horizontal border line `'╠' + '═' * (table_size - 2) + '╣'`. -/
def border_line (size : Nat) : List Char :=
  '╠' :: List.replicate (size - 2) '═' ++ ['╣']

/-- `TableBuilder._add_border_tline`: append a horizontal border line. -/
def add_border_tline (tb : TableBuilder) : TableBuilder :=
  { tb with table_lines := tb.table_lines ++ [border_line tb.table_size] }

/-- The content lines `TableBuilder._add_content_tline` appends for `content`:
wrap to `table_size - 4`, then pad each wrapped line.  Python's negative
string-repeat counts produce `''`, which coincides with the truncated `Nat`
subtraction used here. -/
def content_tlines (size : Nat) (content : List Char) (center : Bool) : List (List Char) :=
  (pyWrap content (size - 4)).map (fun line =>
    if center then
      let remaining := size - line.length - 2
      '║' :: (List.replicate (remaining / 2) ' ' ++ line
        ++ List.replicate (remaining / 2 + remaining % 2) ' ') ++ ['║']
    else
      '║' :: ' ' :: (line ++ List.replicate (size - 4 - line.length) ' ') ++ [' ', '║'])

/-- `TableBuilder._add_content_tline`. -/
def add_content_tline (tb : TableBuilder) (content : List Char) (center : Bool) : TableBuilder :=
  { tb with table_lines := tb.table_lines ++ content_tlines tb.table_size content center }

/-- `TableBuilder.add_section(*lines)`. -/
def add_section (tb : TableBuilder) (lines : List (List Char)) : TableBuilder :=
  let tb1 := if tb.table_lines.length = 0 then add_border_tline tb else tb
  let tb2 := lines.foldl (fun t l => add_content_tline t l false) tb1
  add_border_tline tb2

/-- `TableBuilder.add_header(text)`. -/
def add_header (tb : TableBuilder) (text : List Char) : TableBuilder :=
  let tb1 := if tb.table_lines.length = 0 then add_border_tline tb else tb
  add_border_tline (add_content_tline tb1 text true)

/-- Python `str.replace(a, b)` for single-character `a`, `b`: replace every
occurrence of `a`. -/
def pyReplaceChar (a b : Char) (l : List Char) : List Char :=
  l.map (fun c => if c = a then b else c)

/-- The corner rewrite `get_table` applies to the first line:
`.replace('╠', '╔').replace('╣', '╗')`. -/
def replTop (l : List Char) : List Char :=
  pyReplaceChar '╣' '╗' (pyReplaceChar '╠' '╔' l)

/-- The corner rewrite `get_table` applies to the last line:
`.replace('╠', '╚').replace('╣', '╝')`. -/
def replBot (l : List Char) : List Char :=
  pyReplaceChar '╣' '╝' (pyReplaceChar '╠' '╚' l)

/-- `TableBuilder.get_table()`: rewrite the corners of the first and last
line in place, then return the lines.  On an empty buffer the subscript
`self.table_lines[0]` raises `IndexError`, modelled as `none`.  The returned
value and the post-call state are paired, since the rewrite is a side effect
on the buffer. -/
def get_table (tb : TableBuilder) : Option (List (List Char) × TableBuilder) :=
  if tb.table_lines.isEmpty then none
  else
    let l1 := tb.table_lines.set 0 (replTop (tb.table_lines.headD []))
    let l2 := l1.set (l1.length - 1) (replBot (l1.getLastD []))
    some (l2, { tb with table_lines := l2 })

/-- The lines `get_table` returns (`[]` when it raises). -/
def getTableLines (tb : TableBuilder) : List (List Char) :=
  ((get_table tb).map (fun p => p.1)).getD []

/-- A public `TableBuilder` operation. -/
inductive TbOp where
  | sec (lines : List (List Char))
  | header (text : List Char)
  deriving DecidableEq, Repr

/-- Apply one public operation. -/
def applyOp (tb : TableBuilder) : TbOp → TableBuilder
  | .sec lines => add_section tb lines
  | .header text => add_header tb text

/-- A fresh builder of width `size` after a sequence of public operations. -/
def runOps (size : Nat) (ops : List TbOp) : TableBuilder :=
  ops.foldl applyOp ⟨size, []⟩

/-! ## Renderer

The input record `LocationInfoDTO` (from `collectors.models`, outside this
repository's renderer module).  Fields the renderer only ever interpolates
into f-strings are modelled as their interpolated text (`List Char`):
`latitude`/`longitude`/`area` and the weather numbers stand for `str(x)` of
the original values, and the second component of a currency pair stands for
`str(Decimal(rate).quantize(Decimal('.01'), ROUND_HALF_UP))` — no claim
depends on those conversions.  `population` is kept as a number because
`_format_pop` below reformats it. -/

/-- A language entry (`name`, `native_name`). -/
structure LanguageDTO where
  name : List Char
  native_name : List Char
  deriving DecidableEq, Repr

/-- A news item; the renderer reads only the title. -/
structure NewsDTO where
  title : List Char
  deriving DecidableEq, Repr

/-- The weather snapshot, as interpolated text. -/
structure WeatherDTO where
  temp : List Char
  wind_speed : List Char
  visibility : List Char
  description : List Char
  deriving DecidableEq, Repr

/-- The location attributes the renderer reads. -/
structure LocationDTO where
  name : List Char
  capital : List Char
  latitude : List Char
  longitude : List Char
  region : List Char
  subregion : List Char
  area : Option (List Char)
  population : Nat
  languages : List LanguageDTO
  timezones : List (List Char)
  deriving DecidableEq, Repr

/-- The full input record. -/
structure LocationInfoDTO where
  location : LocationDTO
  weather : WeatherDTO
  currency_rates : List (List Char × List Char)
  news : List NewsDTO
  deriving DecidableEq, Repr

/-- Insert a `'.'` after every third digit, walking a reversed digit list. -/
def groupRev : List Char → List Char
  | a :: b :: c :: d :: rest => a :: b :: c :: '.' :: groupRev (d :: rest)
  | l => l

/-- `Renderer._format_population`: `"{:,}".format(n).replace(",", ".")` —
decimal digits in groups of three separated by `'.'` (population is
non-negative). -/
def format_population (n : Nat) : List Char :=
  (groupRev (Nat.toDigits 10 n).reverse).reverse

/-- `int(s)` on an optionally signed digit string (no surrounding
whitespace): `none` models `ValueError`. -/
def digitsToNat : List Char → Option Nat
  | [] => none
  | ds =>
    ds.foldl
      (fun acc c =>
        acc.bind (fun n => if '0' ≤ c ∧ c ≤ '9' then some (10 * n + (c.toNat - 48)) else none))
      (some 0)

/-- Python `int(s)` for the slices `_format_time` takes: an optional sign
followed by digits. -/
def pyInt : List Char → Option Int
  | '+' :: ds => (digitsToNat ds).map (fun n => (n : Int))
  | '-' :: ds => (digitsToNat ds).map (fun n => -(n : Int))
  | ds => (digitsToNat ds).map (fun n => (n : Int))

/-- The fixed offset (in minutes) the `except ZoneInfoNotFoundError` branch of
`Renderer._format_time` builds from `timezones[0]`:
`hours = int(s[3:6])`, `minutes = int(s[7:9])`,
`timezone(timedelta(hours=hours, minutes=minutes if hours > 0 else -minutes))`.
`none` models an exception the branch does not catch: `ValueError` from
`int()` on a malformed slice, or `ValueError` from `timezone()` when the
offset is not strictly between -24 and +24 hours. -/
def fallbackOffsetMinutes (s : List Char) : Option Int :=
  match pyInt ((s.drop 3).take 3), pyInt ((s.drop 7).take 2) with
  | some hours, some minutes =>
    let off := 60 * hours + (if 0 < hours then minutes else -minutes)
    if -1440 < off ∧ off < 1440 then some off else none
  | _, _ => none

/-- The fallback branch of `Renderer._format_time` as a whole: pick
`timezones[0]` (`none` models the `IndexError` on an empty list), parse the
offset, and return the formatted string together with the offset of the
constructed `timezone`.  `timeStr` stands for
`zone_time.strftime("%d.%m.%Y %H:%M")`, which reads the ambient clock. -/
def format_time_fallback (timezones : List (List Char)) (timeStr : List Char) :
    Option (List Char × Int) :=
  match timezones with
  | [] => none
  | s :: _ =>
    (fallbackOffsetMinutes s).map
      (fun off => (timeStr ++ ' ' :: '(' :: (s ++ [')']), off))

/-- The signed offset in minutes denoted by a well-formed `"UTC±HH:MM"`
string, following the spec's words: sign applied to both the hour and the
minute component. -/
def specOffsetMinutes (sign : Char) (h m : Nat) : Int :=
  (if sign = '-' then -1 else 1) * (60 * (h : Int) + (m : Int))

/-- `"%02d" % n` for `n ≥ 0`: at least two decimal digits. -/
def pad2 (n : Nat) : List Char :=
  if n < 10 then ['0', Nat.digitChar n] else Nat.toDigits 10 n

/-- The `zone_utc_string` the primary (resolvable-zone) branch of
`Renderer._format_time` computes from the zone's `utcoffset()`.
`offsetSeconds` is `zone_offset.days * 86400 + zone_offset.seconds`, the
offset's total seconds; `//` is Python floor division (`Int.fdiv`). -/
def zone_utc_string (offsetSeconds : Int) : List Char :=
  let hours := offsetSeconds.fdiv 3600
  let minutes := offsetSeconds.fdiv 60 - hours * 60
  'U' :: 'T' :: 'C' :: (if hours < 0 then '-' else '+') ::
    (pad2 hours.natAbs ++ ':' :: pad2 minutes.natAbs)

/-- The output of the primary branch of `_format_time`:
`f'{zone_time.strftime("%d.%m.%Y %H:%M")} ({zone_utc_string})'`. -/
def format_time_primary (timeStr : List Char) (offsetSeconds : Int) : List Char :=
  timeStr ++ ' ' :: '(' :: (zone_utc_string offsetSeconds ++ [')'])

/-- `Renderer.render()`: drive a fresh default-width `TableBuilder` through
the header/section calls of `renderer.py` lines 35-68.  `timeStr` stands for
the awaited result of `self._format_time()` (it depends on the ambient
clock).  Line 63 of the source reads `tb.add_header('НОВОСТИ')` with no
`await`: the coroutine is created and dropped, its body never runs, so no
header is appended there — only the following awaited `add_section` call
takes effect. -/
def render (info : LocationInfoDTO) (timeStr : List Char) :
    Option (List (List Char) × TableBuilder) :=
  let tb := TableBuilder.mk 120 []
  let tb := add_header tb ("СТРАНА").toList
  let tb := add_section tb
    [ ("Название: ").toList ++ info.location.name,
      ("Столица: ").toList ++ info.location.capital ++ (" (").toList ++
        info.location.latitude ++ (", ").toList ++ info.location.longitude ++ [')'],
      ("Время в столице: ").toList ++ timeStr,
      ("Население страны: ").toList ++ format_population info.location.population ++
        (" чел.").toList,
      ("Регион: ").toList ++ info.location.subregion,
      ("Площадь: ").toList ++
        (match info.location.area with
         | some a => a ++ (" км2").toList
         | none => ['-']) ]
  let tb := add_header tb ("ЯЗЫКИ").toList
  let tb := add_section tb
    (info.location.languages.map
      (fun l => l.name ++ (" (").toList ++ l.native_name ++ [')']))
  let tb := add_header tb ("ВАЛЮТЫ").toList
  let tb := add_section tb
    (info.currency_rates.map
      (fun p => p.1 ++ (" = ").toList ++ p.2 ++ (" руб.").toList))
  let tb := add_header tb ("ПОГОДА").toList
  let tb := add_section tb
    [ ("Температура: ").toList ++ info.weather.temp ++ (" °C").toList,
      ("Скорость ветра: ").toList ++ info.weather.wind_speed ++ (" м/с").toList,
      ("Видимость: ").toList ++ info.weather.visibility ++ (" м").toList,
      ("Описание: ").toList ++ info.weather.description ]
  let tb :=
    if 0 < info.news.length then
      add_section tb (info.news.map (fun n => n.title))
    else tb
  get_table tb

/-- The lines `render` returns. -/
def renderLines (info : LocationInfoDTO) (timeStr : List Char) : List (List Char) :=
  ((render info timeStr).map (fun p => p.1)).getD []

/-! ## Basic lemmas about the wrap model -/

theorem sumLen_nil : sumLen [] = 0 := rfl

theorem sumLen_cons (c : List Char) (cs : List (List Char)) :
    sumLen (c :: cs) = c.length + sumLen cs := by
  simp [sumLen]

theorem sumLen_append (xs ys : List (List Char)) :
    sumLen (xs ++ ys) = sumLen xs + sumLen ys := by
  simp [sumLen]

theorem length_flatten_eq_sumLen (cs : List (List Char)) :
    cs.flatten.length = sumLen cs := by
  simp [sumLen]

theorem greedy_append (width : Nat) :
    ∀ (cs : List (List Char)) (curLen : Nat),
      (greedy width curLen cs).1 ++ (greedy width curLen cs).2 = cs
  | [], _ => rfl
  | c :: rest, curLen => by
    simp only [greedy]
    split
    · simpa using greedy_append width rest (curLen + c.length)
    · simp

theorem greedy_sum (width : Nat) :
    ∀ (cs : List (List Char)) (curLen : Nat),
      curLen + sumLen (greedy width curLen cs).1 ≤ width ∨
        (greedy width curLen cs).1 = []
  | [], curLen => by
    simp [greedy, sumLen_nil]
  | c :: rest, curLen => by
    simp only [greedy]
    split
    · rcases greedy_sum width rest (curLen + c.length) with h | h
      · left; simp only [sumLen_cons]; omega
      · left; simp [h, sumLen_cons, sumLen_nil]; omega
    · right; rfl

theorem sumLen_dropLast_le (l : List (List Char)) : sumLen l.dropLast ≤ sumLen l := by
  have h : (l.dropLast.map List.length).Sublist (l.map List.length) :=
    (List.dropLast_sublist l).map List.length
  exact h.sum_le_sum (by intro x hx; exact Nat.zero_le x)

theorem dropTrailingWs_sumLen_le (l : List (List Char)) :
    sumLen (dropTrailingWs l) ≤ sumLen l := by
  unfold dropTrailingWs
  cases h : l.getLast? with
  | none => exact Nat.le_refl _
  | some last =>
    dsimp only
    split
    · exact sumLen_dropLast_le l
    · exact Nat.le_refl _

theorem rfindHyphen_lt (chunk : List Char) (stop i : Nat)
    (h : rfindHyphen chunk stop = some i) : i < stop := by
  unfold rfindHyphen at h
  cases hf : (((chunk.take stop).enum.reverse).find? (fun p => p.2 = '-')) with
  | none => simp [hf] at h
  | some p =>
    have hm : p ∈ (chunk.take stop).enum.reverse := List.mem_of_find?_eq_some hf
    rw [List.mem_reverse] at hm
    have hp : (chunk.take stop)[p.1]? = some p.2 := by
      have := List.mem_enum_iff_getElem?.mp hm
      simpa using this
    have hlt : p.1 < (chunk.take stop).length := by
      have := List.getElem?_eq_some.mp hp
      exact this.1
    simp [hf] at h
    subst h
    have : (chunk.take stop).length ≤ stop := by
      simp [List.length_take]
    omega

theorem longWordEnd_le (chunk : List Char) (sl : Nat) : longWordEnd chunk sl ≤ sl := by
  unfold longWordEnd
  cases h : rfindHyphen chunk sl with
  | none => exact Nat.le_refl _
  | some i =>
    dsimp only
    split
    · exact rfindHyphen_lt chunk sl i h
    · exact Nat.le_refl _

theorem buildLine_sumLen_le (width : Nat) (chunks : List (List Char)) :
    sumLen (buildLine width chunks).1 ≤ width := by
  have hg : sumLen (greedy width 0 chunks).1 ≤ width := by
    rcases greedy_sum width chunks 0 with h | h
    · omega
    · simp [h, sumLen_nil]
  unfold buildLine
  dsimp only
  split
  · exact Nat.le_trans (dropTrailingWs_sumLen_le _) hg
  · rename_i r rs hr
    split
    · dsimp only
      refine Nat.le_trans (dropTrailingWs_sumLen_le _) ?_
      rw [sumLen_append]
      have he : (r.take (longWordEnd r (width - sumLen (greedy width 0 chunks).1))).length
          ≤ width - sumLen (greedy width 0 chunks).1 := by
        refine Nat.le_trans ?_ (longWordEnd_le r _)
        simp [List.length_take]
      simp only [sumLen_cons, sumLen_nil]
      omega
    · exact Nat.le_trans (dropTrailingWs_sumLen_le _) hg

theorem wrapGo_length_le (width : Nat) :
    ∀ (fuel : Nat) (hasLines : Bool) (chunks : List (List Char)),
      ∀ l ∈ wrapGo width fuel hasLines chunks, l.length ≤ width
  | 0, _, _ => by simp [wrapGo]
  | _ + 1, _, [] => by simp [wrapGo]
  | fuel + 1, hasLines, c :: rest => by
    intro l hl
    simp only [wrapGo] at hl
    set chunks1 := if hasLines && c.all pyIsSpace then rest else c :: rest with hc1
    by_cases he : (buildLine width chunks1).1.isEmpty
    · simp only [he, if_pos] at hl
      exact wrapGo_length_le width fuel hasLines _ l hl
    · simp only [he, if_neg, Bool.false_eq_true, not_false_iff] at hl
      rcases List.mem_cons.mp hl with h | h
      · subst h
        rw [length_flatten_eq_sumLen]
        exact buildLine_sumLen_le width chunks1
      · exact wrapGo_length_le width fuel true _ l h

theorem pyWrap_length_le (text : List Char) (width : Nat) :
    ∀ l ∈ pyWrap text width, l.length ≤ width := by
  intro l hl
  exact wrapGo_length_le width _ false _ l hl

/-! ## Bridging the two whitespace classes -/

theorem pySpace_imp_uni {c : Char} (h : pySpace c = true) : pyIsSpace c = true := by
  simp only [pySpace, Bool.or_eq_true, decide_eq_true_eq] at h
  rcases h with ((((h | h) | h) | h) | h) | h <;> subst h <;> decide

theorem all_pySpace_imp_uni {l : List Char} (h : l.all pySpace = true) :
    l.all pyIsSpace = true := by
  rw [List.all_eq_true] at h ⊢
  exact fun c hc => pySpace_imp_uni (h c hc)

theorem all_uni_eq_all_pySpace {l : List Char}
    (h : ∀ c ∈ l, pyIsSpace c = pySpace c) :
    l.all pyIsSpace = l.all pySpace := by
  induction l with
  | nil => rfl
  | cons c cs ih =>
    simp only [List.all_cons, h c (List.mem_cons_self c cs),
      ih (fun x hx => h x (List.mem_cons_of_mem c hx))]

/-! ## Line-width invariant -/

theorem border_line_length (W : Nat) (h : 2 ≤ W) : (border_line W).length = W := by
  simp [border_line]
  omega

theorem content_tlines_length (size : Nat) (content : List Char) (center : Bool)
    (h : 5 ≤ size) : ∀ l ∈ content_tlines size content center, l.length = size := by
  intro l hl
  simp only [content_tlines, List.mem_map] at hl
  obtain ⟨line, hline, rfl⟩ := hl
  have hlen : line.length ≤ size - 4 := pyWrap_length_le content (size - 4) line hline
  by_cases hc : center = true
  · simp [hc]
    omega
  · simp at hc
    simp [hc]
    omega

theorem add_border_tline_inv (tb : TableBuilder) (W : Nat) (hsz : tb.table_size = W)
    (h : 2 ≤ W) (hinv : ∀ l ∈ tb.table_lines, l.length = W) :
    ∀ l ∈ (add_border_tline tb).table_lines, l.length = W := by
  intro l hl
  simp only [add_border_tline, List.mem_append, List.mem_singleton] at hl
  rcases hl with hl | hl
  · exact hinv l hl
  · subst hl; rw [hsz]; exact border_line_length W (by omega)

theorem add_content_tline_inv (tb : TableBuilder) (content : List Char) (center : Bool)
    (W : Nat) (hsz : tb.table_size = W) (h : 5 ≤ W)
    (hinv : ∀ l ∈ tb.table_lines, l.length = W) :
    ∀ l ∈ (add_content_tline tb content center).table_lines, l.length = W := by
  intro l hl
  simp only [add_content_tline, List.mem_append] at hl
  rcases hl with hl | hl
  · exact hinv l hl
  · rw [hsz] at hl
    exact content_tlines_length W content center h l hl

theorem contentFoldl_table_size (ls : List (List Char)) :
    ∀ (t : TableBuilder),
      (ls.foldl (fun t l => add_content_tline t l false) t).table_size = t.table_size := by
  induction ls with
  | nil => intro t; rfl
  | cons a as ih => intro t; rw [List.foldl_cons, ih]; rfl

theorem applyOp_table_size (tb : TableBuilder) (op : TbOp) :
    (applyOp tb op).table_size = tb.table_size := by
  cases op with
  | sec lines =>
    simp only [applyOp, add_section]
    rw [show ∀ t : TableBuilder, (add_border_tline t).table_size = t.table_size from fun _ => rfl]
    rw [contentFoldl_table_size]
    split <;> rfl
  | header text => simp only [applyOp, add_header]; split <;> rfl

theorem contentFoldl_inv (W : Nat) (h : 5 ≤ W) (ls : List (List Char)) :
    ∀ (t : TableBuilder), t.table_size = W → (∀ l ∈ t.table_lines, l.length = W) →
      ∀ l ∈ (ls.foldl (fun t l => add_content_tline t l false) t).table_lines, l.length = W := by
  induction ls with
  | nil => intro t _ hti; exact hti
  | cons a as ih =>
    intro t hts hti
    rw [List.foldl_cons]
    exact ih _ (by rw [show (add_content_tline t a false).table_size = t.table_size from rfl, hts])
      (add_content_tline_inv t a false W hts h hti)

theorem applyOp_inv (tb : TableBuilder) (op : TbOp) (W : Nat) (hsz : tb.table_size = W)
    (h : 5 ≤ W) (hinv : ∀ l ∈ tb.table_lines, l.length = W) :
    ∀ l ∈ (applyOp tb op).table_lines, l.length = W := by
  have hsz1 : (if tb.table_lines.length = 0 then add_border_tline tb else tb).table_size = W := by
    split <;> exact hsz
  have h1 : ∀ l ∈ (if tb.table_lines.length = 0 then add_border_tline tb else tb).table_lines,
      l.length = W := by
    split
    · exact add_border_tline_inv tb W hsz (by omega) hinv
    · exact hinv
  cases op with
  | sec lines =>
    simp only [applyOp, add_section]
    refine add_border_tline_inv _ W ?_ (by omega) ?_
    · rw [contentFoldl_table_size, hsz1]
    · exact contentFoldl_inv W h lines _ hsz1 h1
  | header text =>
    simp only [applyOp, add_header]
    refine add_border_tline_inv _ W ?_ (by omega) ?_
    · rw [show ∀ t : TableBuilder, (add_content_tline t text true).table_size = t.table_size from
        fun _ => rfl, hsz1]
    · exact add_content_tline_inv _ text true W hsz1 h h1

theorem runOps_table_size (W : Nat) (ops : List TbOp) : (runOps W ops).table_size = W := by
  suffices hgen : ∀ (ops : List TbOp) (tb : TableBuilder),
      (ops.foldl applyOp tb).table_size = tb.table_size by
    exact hgen ops ⟨W, []⟩
  intro ops
  induction ops with
  | nil => intro tb; rfl
  | cons o os ih => intro tb; rw [List.foldl_cons, ih, applyOp_table_size]

theorem runOps_inv (W : Nat) (h : 5 ≤ W) (ops : List TbOp) :
    ∀ l ∈ (runOps W ops).table_lines, l.length = W := by
  suffices hgen : ∀ (ops : List TbOp) (tb : TableBuilder), tb.table_size = W →
      (∀ l ∈ tb.table_lines, l.length = W) →
      ∀ l ∈ (ops.foldl applyOp tb).table_lines, l.length = W by
    exact hgen ops ⟨W, []⟩ rfl (by simp)
  intro ops
  induction ops with
  | nil => intro tb _ hti; exact hti
  | cons o os ih =>
    intro tb hts hti
    rw [List.foldl_cons]
    exact ih _ (by rw [applyOp_table_size, hts]) (applyOp_inv tb o W hts h hti)

theorem replTop_length (l : List Char) : (replTop l).length = l.length := by
  simp [replTop, pyReplaceChar]

theorem replBot_length (l : List Char) : (replBot l).length = l.length := by
  simp [replBot, pyReplaceChar]

theorem headD_mem {α : Type} (l : List α) (d : α) (h : l ≠ []) : l.headD d ∈ l := by
  cases l with
  | nil => exact absurd rfl h
  | cons x xs => simp

theorem getLastD_mem {α : Type} (l : List α) (d : α) (h : l ≠ []) : l.getLastD d ∈ l := by
  rw [List.getLastD_eq_getLast? d l, List.getLast?_eq_getLast l h]
  simp [List.getLast_mem]

theorem mem_set_length (W : Nat) (ls : List (List Char)) (n : Nat) (b : List Char)
    (hinv : ∀ l ∈ ls, l.length = W) (hb : b.length = W) :
    ∀ l ∈ ls.set n b, l.length = W := by
  intro l hl
  rcases List.mem_or_eq_of_mem_set hl with h | h
  · exact hinv l h
  · rw [h]; exact hb

theorem getTableLines_inv (tb : TableBuilder) (W : Nat)
    (hinv : ∀ l ∈ tb.table_lines, l.length = W) :
    ∀ l ∈ getTableLines tb, l.length = W := by
  unfold getTableLines get_table
  split
  · simp
  · rename_i hne
    have h0 : tb.table_lines ≠ [] := by
      intro h
      rw [h] at hne
      simp at hne
    have inv1 : ∀ l ∈ tb.table_lines.set 0 (replTop (tb.table_lines.headD [])),
        l.length = W := by
      refine mem_set_length W _ 0 _ hinv ?_
      rw [replTop_length]
      exact hinv _ (headD_mem _ _ h0)
    have h1ne : tb.table_lines.set 0 (replTop (tb.table_lines.headD [])) ≠ [] := by
      intro h
      have := congrArg List.length h
      rw [List.length_set] at this
      exact h0 (List.eq_nil_of_length_eq_zero this)
    have inv2 : ∀ l ∈ (tb.table_lines.set 0 (replTop (tb.table_lines.headD []))).set
        ((tb.table_lines.set 0 (replTop (tb.table_lines.headD []))).length - 1)
        (replBot ((tb.table_lines.set 0 (replTop (tb.table_lines.headD []))).getLastD [])),
        l.length = W := by
      refine mem_set_length W _ _ _ inv1 ?_
      rw [replBot_length]
      exact inv1 _ (getLastD_mem _ _ h1ne)
    intro l hl
    simp only [Option.map_some', Option.getD_some] at hl
    exact inv2 l hl

/-- C1: with a builder of width `W ≥ 20`, after any sequence of
`add_section`/`add_header` operations every buffered line — border lines and
left-aligned or centered content lines alike — has length exactly `W`, and so
does every line returned by `get_table`. -/
theorem c1_every_line_has_width (W : Nat) (hW : 20 ≤ W) (ops : List TbOp) :
    (∀ l ∈ (runOps W ops).table_lines, l.length = W) ∧
      (∀ l ∈ getTableLines (runOps W ops), l.length = W) := by
  have h5 : 5 ≤ W := by omega
  have hinv := runOps_inv W h5 ops
  have hsz := runOps_table_size W ops
  refine ⟨hinv, ?_⟩
  exact getTableLines_inv (runOps W ops) W hinv

/-- Witness for C1 at `W = 120` with one header and one section. -/
theorem c1_witness :
    (((runOps 120 [TbOp.header ("СТРАНА").toList,
        TbOp.sec [("Название: Россия").toList]]).table_lines.headD []).length = 120) :=
  (c1_every_line_has_width 120 (by decide)
      [TbOp.header ("СТРАНА").toList, TbOp.sec [("Название: Россия").toList]]).1
    _ (by decide)

/-! ## Structural lemmas for `add_section` and `get_table` -/

theorem set_self {α : Type} : ∀ (l : List α) (i : Nat) (x : α),
    l[i]? = some x → l.set i x = l
  | [], i, x, h => by simp at h
  | a :: rest, 0, x, h => by
    simp at h
    simp [h]
  | a :: rest, i + 1, x, h => by
    simp at h
    simp [set_self rest i x h]

theorem getLast?_set_last {α : Type} : ∀ (l : List α) (b : α), l ≠ [] →
    (l.set (l.length - 1) b).getLast? = some b
  | [], _, h => absurd rfl h
  | [a], b, _ => rfl
  | a :: c :: rest, b, _ => by
    have h1 : (a :: c :: rest).length - 1 = (c :: rest).length := by simp
    rw [h1]
    show ((a :: ((c :: rest).set ((c :: rest).length - 1 + 1 - 1) b)).getLast? = some b)
    have h2 : (c :: rest).length - 1 + 1 - 1 = (c :: rest).length - 1 := by simp
    rw [h2]
    rw [List.getLast?_cons]
    rw [getLast?_set_last (c :: rest) b (by simp)]
    simp

theorem getElem?_set_last {α : Type} (l : List α) (b : α) (h : l ≠ []) :
    (l.set (l.length - 1) b)[(l.set (l.length - 1) b).length - 1]? = some b := by
  rw [← List.getLast?_eq_getElem?]
  exact getLast?_set_last l b h

theorem pyReplaceChar_not_mem_self (a b : Char) (l : List Char) (hne : b ≠ a) :
    a ∉ pyReplaceChar a b l := by
  intro h
  simp only [pyReplaceChar, List.mem_map] at h
  obtain ⟨c, _, hc⟩ := h
  by_cases hca : c = a
  · rw [if_pos hca] at hc; exact hne hc
  · rw [if_neg hca] at hc; exact hca hc

theorem pyReplaceChar_not_mem_of_not_mem (a b x : Char) (l : List Char)
    (hx : x ∉ l) (hxb : x ≠ b) : x ∉ pyReplaceChar a b l := by
  intro h
  simp only [pyReplaceChar, List.mem_map] at h
  obtain ⟨c, hcl, hc⟩ := h
  by_cases hca : c = a
  · rw [if_pos hca] at hc; exact hxb hc.symm
  · rw [if_neg hca] at hc; rw [← hc] at hx; exact hx hcl

theorem pyReplaceChar_of_not_mem (a b : Char) (l : List Char) (h : a ∉ l) :
    pyReplaceChar a b l = l := by
  unfold pyReplaceChar
  conv_rhs => rw [← List.map_id l]
  refine List.map_congr_left ?_
  intro c hc
  have hca : c ≠ a := by
    intro hca
    rw [hca] at hc
    exact h hc
  simp [if_neg hca]

theorem replTop_no_corners (l : List Char) : '╠' ∉ replTop l ∧ '╣' ∉ replTop l := by
  unfold replTop
  constructor
  · exact pyReplaceChar_not_mem_of_not_mem '╣' '╗' '╠' _
      (pyReplaceChar_not_mem_self '╠' '╔' l (by decide)) (by decide)
  · exact pyReplaceChar_not_mem_self '╣' '╗' _ (by decide)

theorem replBot_no_corners (l : List Char) : '╠' ∉ replBot l ∧ '╣' ∉ replBot l := by
  unfold replBot
  constructor
  · exact pyReplaceChar_not_mem_of_not_mem '╣' '╝' '╠' _
      (pyReplaceChar_not_mem_self '╠' '╚' l (by decide)) (by decide)
  · exact pyReplaceChar_not_mem_self '╣' '╝' _ (by decide)

theorem replTop_of_no_corners (l : List Char) (h1 : '╠' ∉ l) (h2 : '╣' ∉ l) :
    replTop l = l := by
  unfold replTop
  rw [pyReplaceChar_of_not_mem '╠' '╔' l h1, pyReplaceChar_of_not_mem '╣' '╗' l h2]

theorem replBot_of_no_corners (l : List Char) (h1 : '╠' ∉ l) (h2 : '╣' ∉ l) :
    replBot l = l := by
  unfold replBot
  rw [pyReplaceChar_of_not_mem '╠' '╚' l h1, pyReplaceChar_of_not_mem '╣' '╝' l h2]

theorem headD_getElem {α : Type} (l : List α) (d : α) (h : l ≠ []) :
    l[0]? = some (l.headD d) := by
  cases l with
  | nil => exact absurd rfl h
  | cons x xs => simp

/-- C5 (amended): `get_table` is idempotent.  After one call the first and
last lines contain no `'╠'`/`'╣'` (every occurrence was replaced by a corner
character), so a second call's `replace` rewrites change nothing: it returns
the same lines and leaves the buffer unchanged. -/
theorem c5_amended_get_table_idempotent (tb : TableBuilder) (r : List (List Char))
    (tb' : TableBuilder) (h : get_table tb = some (r, tb')) :
    get_table tb' = some (r, tb') := by
  unfold get_table at h
  split at h
  · exact absurd h (by simp)
  · rename_i hne
    have h0 : tb.table_lines ≠ [] := by
      intro hx; rw [hx] at hne; simp at hne
    simp only [Option.some.injEq, Prod.mk.injEq] at h
    obtain ⟨hr, htb'⟩ := h
    set a := replTop (tb.table_lines.headD []) with ha
    set l1 := tb.table_lines.set 0 a with hl1
    set b := replBot (l1.getLastD []) with hb
    set l2 := l1.set (l1.length - 1) b with hl2
    have hlen1 : l1.length = tb.table_lines.length := by rw [hl1]; simp
    have hl1ne : l1 ≠ [] := by
      intro hx
      have := congrArg List.length hx
      rw [hlen1] at this
      exact h0 (List.eq_nil_of_length_eq_zero this)
    have hlen2 : l2.length = l1.length := by rw [hl2]; simp
    have hl2ne : l2 ≠ [] := by
      intro hx
      have := congrArg List.length hx
      rw [hlen2] at this
      exact hl1ne (List.eq_nil_of_length_eq_zero this)
    have hlast2 : l2.getLast? = some b := getLast?_set_last l1 b hl1ne
    have hgetLastD2 : l2.getLastD [] = b := by
      rw [List.getLastD_eq_getLast? [] l2, hlast2]; rfl
    have hhead2 : '╠' ∉ l2.headD [] ∧ '╣' ∉ l2.headD [] := by
      have h02 : l2[0]? = some b ∨ l2[0]? = some a := by
        by_cases hc : l1.length - 1 = 0
        · left
          rw [hl2, hc]
          exact List.getElem?_set_self (by rw [List.length_pos]; exact hl1ne)
        · right
          rw [hl2, List.getElem?_set_ne hc, hl1]
          exact List.getElem?_set_self (by rw [List.length_pos]; exact h0)
      have hD := headD_getElem l2 [] hl2ne
      rcases h02 with hx | hx
      · rw [hD] at hx
        have : l2.headD [] = b := by injection hx
        rw [this, hb]
        exact replBot_no_corners _
      · rw [hD] at hx
        have : l2.headD [] = a := by injection hx
        rw [this, ha]
        exact replTop_no_corners _
    have htb'lines : tb'.table_lines = l2 := by rw [← htb']
    unfold get_table
    rw [htb'lines]
    split
    · rename_i hemp
      exact absurd (by simpa using hemp) hl2ne
    · dsimp only
      have e1 : replTop (l2.headD []) = l2.headD [] :=
        replTop_of_no_corners _ hhead2.1 hhead2.2
      have e2 : l2.set 0 (l2.headD []) = l2 := set_self l2 0 _ (headD_getElem l2 [] hl2ne)
      rw [e1, e2]
      have e3 : replBot (l2.getLastD []) = l2.getLastD [] := by
        rw [hgetLastD2, hb]
        exact replBot_of_no_corners _ (replBot_no_corners _).1 (replBot_no_corners _).2
      rw [e3, hgetLastD2]
      have e4 : l2.set (l2.length - 1) b = l2 := by
        refine set_self l2 (l2.length - 1) b ?_
        rw [← List.getLast?_eq_getElem?]
        exact hlast2
      rw [e4, ← hr, ← htb']

/-! ## C9, C3, C5: structure of the public operations -/

/-- C9: `get_table` fails (raises `IndexError`, modelled `none`) precisely on
an empty buffer, and after any `add_section`/`add_header` call the buffer is
non-empty, so `get_table` succeeds. -/
theorem c9_get_table_errors_iff_empty :
    (∀ tb : TableBuilder, get_table tb = none ↔ tb.table_lines = []) ∧
      (∀ (tb : TableBuilder) (op : TbOp), (get_table (applyOp tb op)).isSome = true) := by
  have hiff : ∀ tb : TableBuilder, get_table tb = none ↔ tb.table_lines = [] := by
    intro tb
    unfold get_table
    split
    · rename_i h
      simp only [List.isEmpty_iff] at h
      simp [h]
    · rename_i h
      simp only [List.isEmpty_iff] at h
      simp [h]
  refine ⟨hiff, ?_⟩
  intro tb op
  have hne : (applyOp tb op).table_lines ≠ [] := by
    cases op with
    | sec lines => simp [applyOp, add_section, add_border_tline]
    | header text => simp [applyOp, add_header, add_border_tline]
  rw [Option.isSome_iff_ne_none]
  intro hnone
  exact hne ((hiff _).mp hnone)

theorem contentFoldl_lines (ls : List (List Char)) :
    ∀ t : TableBuilder,
      (ls.foldl (fun t l => add_content_tline t l false) t).table_lines =
        t.table_lines ++ ls.flatMap (fun l => content_tlines t.table_size l false) := by
  induction ls with
  | nil => intro t; simp
  | cons a as ih =>
    intro t
    rw [List.foldl_cons, ih]
    simp [add_content_tline, List.flatMap_cons]

/-- Full characterization of `add_section`: the new buffer contents and the
buffer growth. -/
theorem add_section_lines_spec (tb : TableBuilder) (lines : List (List Char)) :
    (add_section tb lines).table_lines =
      tb.table_lines ++
        (if tb.table_lines.length = 0 then [border_line tb.table_size] else []) ++
        lines.flatMap (fun l => content_tlines tb.table_size l false) ++
        [border_line tb.table_size] ∧
    (add_section tb lines).table_lines.length =
      tb.table_lines.length + (if tb.table_lines.length = 0 then 1 else 0) +
        (lines.map (fun l => (pyWrap l (tb.table_size - 4)).length)).sum + 1 := by
  have hsz1 : (if tb.table_lines.length = 0 then add_border_tline tb else tb).table_size =
      tb.table_size := by split <;> rfl
  have hl1 : (if tb.table_lines.length = 0 then add_border_tline tb else tb).table_lines =
      tb.table_lines ++
        (if tb.table_lines.length = 0 then [border_line tb.table_size] else []) := by
    split
    · rename_i h
      have h0 : tb.table_lines = [] := List.eq_nil_of_length_eq_zero h
      simp [add_border_tline, h0]
    · simp
  have hlines : (add_section tb lines).table_lines =
      tb.table_lines ++
        (if tb.table_lines.length = 0 then [border_line tb.table_size] else []) ++
        lines.flatMap (fun l => content_tlines tb.table_size l false) ++
        [border_line tb.table_size] := by
    unfold add_section
    dsimp only
    rw [show ∀ t : TableBuilder, (add_border_tline t).table_lines =
        t.table_lines ++ [border_line t.table_size] from fun _ => rfl]
    rw [contentFoldl_lines, contentFoldl_table_size, hsz1, hl1]
  refine ⟨hlines, ?_⟩
  rw [hlines]
  simp only [List.length_append, List.length_flatMap]
  have hcl : ∀ l : List Char, (content_tlines tb.table_size l false).length =
      (pyWrap l (tb.table_size - 4)).length := by
    intro l
    simp [content_tlines]
  have hmap : (List.map (List.length ∘ fun l => content_tlines tb.table_size l false) lines).sum =
      (lines.map (fun l => (pyWrap l (tb.table_size - 4)).length)).sum := by
    congr 1
    refine List.map_congr_left ?_
    intro l _
    simp only [Function.comp_apply]
    exact hcl l
  rw [hmap]
  split <;> simp

/-- C3 counterexample: on a builder whose buffer is already non-empty (one
prior section), `add_section` with one short line grows the buffer by 2, not
by `2 + sum(wrapped-line-counts) = 3` as the claim states for every prior
buffer state. -/
theorem c3_counterexample :
    ((add_section (add_section ⟨120, []⟩ [("a").toList]) [("b").toList]).table_lines.length =
      (add_section ⟨120, []⟩ [("a").toList]).table_lines.length + 2) ∧
    ((pyWrap ("b").toList 116).length = 1) ∧
    ¬ ((add_section (add_section ⟨120, []⟩ [("a").toList]) [("b").toList]).table_lines.length =
      (add_section ⟨120, []⟩ [("a").toList]).table_lines.length + 2 + 1) := by
  decide

/-- C5 counterexample: a builder holding one section (non-empty buffer) on
which a second `get_table` call returns exactly the first call's result —
refuting the claim that the second call's result always differs. -/
theorem c5_counterexample :
    (add_section ⟨20, []⟩ [("hi").toList]).table_lines ≠ [] ∧
    get_table (((get_table (add_section ⟨20, []⟩ [("hi").toList])).getD ([], ⟨0, []⟩)).2) =
      get_table (add_section ⟨20, []⟩ [("hi").toList]) := by
  decide

/-- Witness for C5 (amended), at a concrete one-section table of width 20. -/
theorem c5_witness :
    get_table (((get_table (add_section ⟨20, []⟩ [("ok").toList])).getD ([], ⟨0, []⟩)).2) =
      some (getTableLines (add_section ⟨20, []⟩ [("ok").toList]),
        ((get_table (add_section ⟨20, []⟩ [("ok").toList])).getD ([], ⟨0, []⟩)).2) :=
  c5_amended_get_table_idempotent (add_section ⟨20, []⟩ [("ok").toList])
    (getTableLines (add_section ⟨20, []⟩ [("ok").toList]))
    (((get_table (add_section ⟨20, []⟩ [("ok").toList])).getD ([], ⟨0, []⟩)).2)
    (by decide)

/-! ## C7, C8: time formatting -/

/-- C8 (code bug): the primary-path offset string uses Python floor division
on the offset's total seconds, so the real offset minus 3 h 30 min
(`-12600` s, e.g. America/St_Johns) is rendered `"UTC-04:30"` — `hours`
floors to `-4` and `minutes` comes out `+30` — instead of the `"UTC-03:30"`
the claim states.  Negative whole-hour and all positive offsets are
unaffected. -/
theorem c8_code_bug_negative_half_hour_offset :
    zone_utc_string (-12600) = ("UTC-04:30").toList ∧
      zone_utc_string (-12600) ≠ ("UTC-03:30").toList ∧
      zone_utc_string 19800 = ("UTC+05:30").toList ∧
      zone_utc_string (-18000) = ("UTC-05:00").toList := by
  decide

/-- C7 counterexample: for the well-formed first timezone entry
`"UTC+00:30"` the fallback constructs an offset of `-30` minutes, not the
`+30` minutes the entry denotes — because `minutes` is negated whenever
`hours > 0` fails, which it does at hour `00` even with sign `'+'`. -/
theorem c7_counterexample_plus_zero_hours :
    fallbackOffsetMinutes (("UTC+00:30").toList) = some (-30) ∧
      specOffsetMinutes '+' 0 30 = 30 ∧ ((-30 : Int) ≠ 30) := by
  decide

theorem digitsToNat_two (a b : Char) (ha : '0' ≤ a ∧ a ≤ '9') (hb : '0' ≤ b ∧ b ≤ '9') :
    digitsToNat [a, b] = some (10 * (a.toNat - 48) + (b.toNat - 48)) := by
  have h1 : digitsToNat [a, b] =
      ([a, b]).foldl
        (fun acc c =>
          acc.bind (fun n => if '0' ≤ c ∧ c ≤ '9' then some (10 * n + (c.toNat - 48)) else none))
        (some 0) := rfl
  rw [h1]
  simp only [List.foldl_cons, List.foldl_nil, Option.some_bind]
  rw [if_pos ha]
  simp only [Option.some_bind]
  rw [if_pos hb]
  simp

/-- C7 (amended): on the fallback path, for every well-formed first
timezone entry `"UTCsHH:MM"` (s a sign, digits elsewhere) no error occurs:
the returned string is the time string followed by the entry verbatim in
parentheses, and the constructed fixed offset equals the entry's signed
offset — except when the sign is `'+'` and the hour field is `00` with
non-zero minutes, in which case the minutes are negated (the code treats
hour `0` as non-positive).  The entry's magnitude must stay strictly below
24 hours: for larger offsets `timezone(timedelta(...))` raises an uncaught
`ValueError`. -/
theorem c7_amended_fallback (sg h1 h2 m1 m2 : Char) (rest : List (List Char))
    (timeStr : List Char) (hsg : sg = '+' ∨ sg = '-')
    (hh1 : '0' ≤ h1 ∧ h1 ≤ '9') (hh2 : '0' ≤ h2 ∧ h2 ≤ '9')
    (hm1 : '0' ≤ m1 ∧ m1 ≤ '9') (hm2 : '0' ≤ m2 ∧ m2 ≤ '9')
    (hrng : 60 * (10 * (h1.toNat - 48) + (h2.toNat - 48)) +
      (10 * (m1.toNat - 48) + (m2.toNat - 48)) < 1440) :
    ∃ off : Int,
      format_time_fallback (('U' :: 'T' :: 'C' :: sg :: h1 :: h2 :: ':' :: m1 :: [m2]) :: rest)
          timeStr =
        some (timeStr ++ ' ' :: '(' ::
          (('U' :: 'T' :: 'C' :: sg :: h1 :: h2 :: ':' :: m1 :: [m2]) ++ [')']), off) ∧
      (¬(sg = '+' ∧ 10 * (h1.toNat - 48) + (h2.toNat - 48) = 0) →
        off = specOffsetMinutes sg (10 * (h1.toNat - 48) + (h2.toNat - 48))
          (10 * (m1.toNat - 48) + (m2.toNat - 48))) ∧
      (sg = '+' ∧ 10 * (h1.toNat - 48) + (h2.toNat - 48) = 0 →
        off = -((10 * (m1.toNat - 48) + (m2.toNat - 48) : Nat) : Int)) := by
  set hN : Nat := 10 * (h1.toNat - 48) + (h2.toNat - 48) with hhN
  set mN : Nat := 10 * (m1.toNat - 48) + (m2.toNat - 48) with hmN
  have hdh : digitsToNat [h1, h2] = some hN := digitsToNat_two h1 h2 hh1 hh2
  have hdm : digitsToNat [m1, m2] = some mN := digitsToNat_two m1 m2 hm1 hm2
  have hpm : pyInt (m1 :: [m2]) = some (mN : Int) := by
    have hm1p : ¬ m1 = '+' := by
      intro h; rw [h] at hm1; exact absurd hm1.1 (by decide)
    have hm1m : ¬ m1 = '-' := by
      intro h; rw [h] at hm1; exact absurd hm1.1 (by decide)
    unfold pyInt
    split
    · rename_i heq
      exact absurd (List.cons.inj heq).1 hm1p
    · rename_i heq
      exact absurd (List.cons.inj heq).1 hm1m
    · rw [hdm]
      rfl
  rcases hsg with hplus | hminus
  · subst hplus
    have hph : pyInt ('+' :: h1 :: [h2]) =
        (digitsToNat (h1 :: [h2])).map (fun n => (n : Int)) := rfl
    rw [hdh] at hph
    have hfo : fallbackOffsetMinutes ('U' :: 'T' :: 'C' :: '+' :: h1 :: h2 :: ':' :: m1 :: [m2]) =
        (match pyInt ('+' :: h1 :: [h2]), pyInt (m1 :: [m2]) with
          | some hours, some minutes =>
            let off := 60 * hours + (if 0 < hours then minutes else -minutes)
            if -1440 < off ∧ off < 1440 then some off else none
          | _, _ => none) := rfl
    rw [hph, hpm] at hfo
    have hoffrng : -1440 < 60 * (hN : Int) + (if 0 < (hN : Int) then (mN : Int) else -(mN : Int)) ∧
        60 * (hN : Int) + (if 0 < (hN : Int) then (mN : Int) else -(mN : Int)) < 1440 := by
      constructor <;> split <;> omega
    have hfo2 : fallbackOffsetMinutes ('U' :: 'T' :: 'C' :: '+' :: h1 :: h2 :: ':' :: m1 :: [m2]) =
        some (60 * (hN : Int) + (if 0 < (hN : Int) then (mN : Int) else -(mN : Int))) := by
      rw [hfo]
      show (if -1440 < 60 * (hN : Int) + (if 0 < (hN : Int) then (mN : Int) else -(mN : Int)) ∧
            60 * (hN : Int) + (if 0 < (hN : Int) then (mN : Int) else -(mN : Int)) < 1440 then
          some (60 * (hN : Int) + (if 0 < (hN : Int) then (mN : Int) else -(mN : Int)))
        else none) =
        some (60 * (hN : Int) + (if 0 < (hN : Int) then (mN : Int) else -(mN : Int)))
      rw [if_pos hoffrng]
    refine ⟨60 * (hN : Int) + (if 0 < (hN : Int) then (mN : Int) else -(mN : Int)), ?_, ?_, ?_⟩
    · have hcomp : format_time_fallback
          (('U' :: 'T' :: 'C' :: '+' :: h1 :: h2 :: ':' :: m1 :: [m2]) :: rest) timeStr =
          (fallbackOffsetMinutes ('U' :: 'T' :: 'C' :: '+' :: h1 :: h2 :: ':' :: m1 :: [m2])).map
            (fun off =>
              (timeStr ++ ' ' :: '(' ::
                (('U' :: 'T' :: 'C' :: '+' :: h1 :: h2 :: ':' :: m1 :: [m2]) ++ [')']), off)) := rfl
      rw [hcomp, hfo2]
      rfl
    · intro hne
      have hN0 : hN ≠ 0 := fun h => hne ⟨rfl, h⟩
      rw [if_pos (by exact_mod_cast Nat.pos_of_ne_zero hN0)]
      unfold specOffsetMinutes
      rw [if_neg (by decide)]
      ring
    · intro hx
      rw [hx.2]
      norm_num
  · subst hminus
    have hph : pyInt ('-' :: h1 :: [h2]) =
        (digitsToNat (h1 :: [h2])).map (fun n => -(n : Int)) := rfl
    rw [hdh] at hph
    have hfo : fallbackOffsetMinutes ('U' :: 'T' :: 'C' :: '-' :: h1 :: h2 :: ':' :: m1 :: [m2]) =
        (match pyInt ('-' :: h1 :: [h2]), pyInt (m1 :: [m2]) with
          | some hours, some minutes =>
            let off := 60 * hours + (if 0 < hours then minutes else -minutes)
            if -1440 < off ∧ off < 1440 then some off else none
          | _, _ => none) := rfl
    rw [hph, hpm] at hfo
    have hoffrng : -1440 < 60 * (-(hN : Int)) +
          (if 0 < (-(hN : Int)) then (mN : Int) else -(mN : Int)) ∧
        60 * (-(hN : Int)) + (if 0 < (-(hN : Int)) then (mN : Int) else -(mN : Int)) < 1440 := by
      constructor <;> split <;> omega
    have hfo2 : fallbackOffsetMinutes ('U' :: 'T' :: 'C' :: '-' :: h1 :: h2 :: ':' :: m1 :: [m2]) =
        some (60 * (-(hN : Int)) + (if 0 < (-(hN : Int)) then (mN : Int) else -(mN : Int))) := by
      rw [hfo]
      show (if -1440 < 60 * (-(hN : Int)) +
              (if 0 < (-(hN : Int)) then (mN : Int) else -(mN : Int)) ∧
            60 * (-(hN : Int)) + (if 0 < (-(hN : Int)) then (mN : Int) else -(mN : Int)) <
              1440 then
          some (60 * (-(hN : Int)) + (if 0 < (-(hN : Int)) then (mN : Int) else -(mN : Int)))
        else none) =
        some (60 * (-(hN : Int)) + (if 0 < (-(hN : Int)) then (mN : Int) else -(mN : Int)))
      rw [if_pos hoffrng]
    refine ⟨60 * (-(hN : Int)) + (if 0 < (-(hN : Int)) then (mN : Int) else -(mN : Int)),
      ?_, ?_, ?_⟩
    · have hcomp : format_time_fallback
          (('U' :: 'T' :: 'C' :: '-' :: h1 :: h2 :: ':' :: m1 :: [m2]) :: rest) timeStr =
          (fallbackOffsetMinutes ('U' :: 'T' :: 'C' :: '-' :: h1 :: h2 :: ':' :: m1 :: [m2])).map
            (fun off =>
              (timeStr ++ ' ' :: '(' ::
                (('U' :: 'T' :: 'C' :: '-' :: h1 :: h2 :: ':' :: m1 :: [m2]) ++ [')']), off)) := rfl
      rw [hcomp, hfo2]
      rfl
    · intro _
      rw [if_neg (by omega)]
      unfold specOffsetMinutes
      rw [if_pos rfl]
      ring
    · intro hx
      exact absurd hx.1 (by decide)

/-- Witness for C7 (amended) at the spec's example `["UTC+03:00"]`. -/
theorem c7_witness :
    ∃ off : Int,
      format_time_fallback (('U' :: 'T' :: 'C' :: '+' :: '0' :: '3' :: ':' :: '0' :: ['0']) :: [])
          (("01.01.2030 12:00").toList) =
        some ((("01.01.2030 12:00").toList) ++ ' ' :: '(' ::
          (('U' :: 'T' :: 'C' :: '+' :: '0' :: '3' :: ':' :: '0' :: ['0']) ++ [')']), off) ∧
      (¬('+' = '+' ∧ 10 * (('0').toNat - 48) + (('3').toNat - 48) = 0) →
        off = specOffsetMinutes '+' (10 * (('0').toNat - 48) + (('3').toNat - 48))
          (10 * (('0').toNat - 48) + (('0').toNat - 48))) ∧
      (('+' = '+' ∧ 10 * (('0').toNat - 48) + (('3').toNat - 48) = 0) →
        off = -((10 * (('0').toNat - 48) + (('0').toNat - 48) : Nat) : Int)) :=
  c7_amended_fallback '+' '0' '3' '0' '0' [] (("01.01.2030 12:00").toList)
    (Or.inl rfl) (by decide) (by decide) (by decide) (by decide) (by decide)

/-- C3 (amended): `add_section` opens with a border line only when the buffer
is empty, appends the wrapped content lines of each given line (zero or more
per line — zero for whitespace-only text), and closes with a border line; so
the buffer grows by `sum(wrapped-line-counts) + 1`, plus one more only when
the buffer was empty. -/
theorem c3_amended_add_section_growth (tb : TableBuilder) (lines : List (List Char)) :
    (add_section tb lines).table_lines =
      tb.table_lines ++
        (if tb.table_lines.length = 0 then [border_line tb.table_size] else []) ++
        lines.flatMap (fun l => content_tlines tb.table_size l false) ++
        [border_line tb.table_size] ∧
    (add_section tb lines).table_lines.length =
      tb.table_lines.length + (if tb.table_lines.length = 0 then 1 else 0) +
        (lines.map (fun l => (pyWrap l (tb.table_size - 4)).length)).sum + 1 :=
  add_section_lines_spec tb lines

/-! ## C10: whitespace-only content -/

theorem expandtabsGo_pySpace (s : List Char) (hs : ∀ c ∈ s, pySpace c = true) :
    ∀ (col : Nat), ∀ c ∈ expandtabsGo col s, pySpace c = true := by
  induction s with
  | nil => intro col c hc; simp [expandtabsGo] at hc
  | cons a rest ih =>
    intro col c hc
    have ha : pySpace a = true := hs a (List.mem_cons_self a rest)
    have hrest : ∀ c ∈ rest, pySpace c = true := fun c hc => hs c (List.mem_cons_of_mem a hc)
    unfold expandtabsGo at hc
    split at hc
    · rcases List.mem_append.mp hc with h | h
      · rw [List.eq_of_mem_replicate h]; rfl
      · exact ih hrest _ c h
    · split at hc
      · rcases List.mem_cons.mp hc with h | h
        · rw [h]; exact ha
        · exact ih hrest _ c h
      · rcases List.mem_cons.mp hc with h | h
        · rw [h]; exact ha
        · exact ih hrest _ c h

theorem munge_all_space (s : List Char) (hs : ∀ c ∈ s, pySpace c = true) :
    ∀ c ∈ munge s, c = ' ' := by
  intro c hc
  unfold munge at hc
  rw [List.mem_map] at hc
  obtain ⟨d, hd, hdc⟩ := hc
  have : pySpace d = true := expandtabsGo_pySpace s hs 0 d hd
  rw [if_pos this] at hdc
  exact hdc.symm

theorem splitRuns_all_space (cs : List Char) (hs : ∀ c ∈ cs, c = ' ') (hne : cs ≠ []) :
    splitRuns cs = [cs] := by
  induction cs with
  | nil => exact absurd rfl hne
  | cons a rest ih =>
    have ha : a = ' ' := hs a (List.mem_cons_self a rest)
    have hrest : ∀ c ∈ rest, c = ' ' := fun c hc => hs c (List.mem_cons_of_mem a hc)
    cases rest with
    | nil => rfl
    | cons x xs =>
      have hx : x = ' ' := hrest x (List.mem_cons_self x xs)
      have hr : splitRuns (x :: xs) = [x :: xs] := ih hrest (by simp)
      unfold splitRuns
      rw [hr]
      show (if pySpace a = pySpace x then (a :: x :: xs) :: ([] : List (List Char))
        else [a] :: (x :: xs) :: []) = [a :: x :: xs]
      rw [if_pos (by rw [ha, hx])]

theorem mem_of_mem_take {α : Type} (l : List α) (n : Nat) (x : α) (h : x ∈ l.take n) :
    x ∈ l :=
  List.mem_of_mem_take h

theorem rfindHyphen_none (chunk : List Char) (stop : Nat) (h : ∀ c ∈ chunk, c ≠ '-') :
    rfindHyphen chunk stop = none := by
  unfold rfindHyphen
  rw [List.find?_eq_none.mpr]
  · rfl
  · intro p hp
    rw [List.mem_reverse] at hp
    have hel : (chunk.take stop)[p.1]? = some p.2 := by
      have := List.mem_enum_iff_getElem?.mp hp
      simpa using this
    have hmem : p.2 ∈ chunk.take stop := List.getElem?_mem hel
    have := h p.2 (mem_of_mem_take chunk stop p.2 hmem)
    simpa using this

theorem wrapGo_nil (width : Nat) : ∀ (fuel : Nat) (hasLines : Bool),
    wrapGo width fuel hasLines [] = [] := by
  intro fuel hasLines
  cases fuel with
  | zero => rfl
  | succ f => rfl

theorem wrapGo_one_space_chunk (width : Nat) (hw : 0 < width) :
    ∀ (fuel : Nat) (cs : List Char), (∀ c ∈ cs, c = ' ') → cs.length + 2 ≤ fuel →
      wrapGo width fuel false [cs] = [] := by
  intro fuel
  induction fuel using Nat.strong_induction_on with
  | _ fuel ih =>
    intro cs hcs hfuel
    obtain ⟨f, rfl⟩ : ∃ f, fuel = f + 1 := ⟨fuel - 1, by omega⟩
    have hall : cs.all pyIsSpace = true := by
      rw [List.all_eq_true]
      intro c hc
      rw [hcs c hc]
      decide
    have hstep : wrapGo width (f + 1) false [cs] =
        (if (buildLine width [cs]).1.isEmpty then wrapGo width f false (buildLine width [cs]).2
         else (buildLine width [cs]).1.flatten ::
           wrapGo width f true (buildLine width [cs]).2) := rfl
    rw [hstep]
    by_cases hlen : cs.length ≤ width
    · have hgre : greedy width 0 [cs] = ([cs], []) := by
        unfold greedy
        rw [if_pos (by omega)]
        rfl
      have hbl : buildLine width [cs] = ([], []) := by
        unfold buildLine
        rw [hgre]
        show (dropTrailingWs [cs], ([] : List (List Char))) = ([], [])
        unfold dropTrailingWs
        simp [hall]
      rw [hbl]
      rw [if_pos (show (([] : List (List Char))).isEmpty = true from rfl)]
      exact wrapGo_nil width f false
    · push_neg at hlen
      have hgre : greedy width 0 [cs] = ([], [cs]) := by
        unfold greedy
        rw [if_neg (by omega)]
      have he : longWordEnd cs (width - sumLen []) = width := by
        unfold longWordEnd
        rw [rfindHyphen_none cs _ (fun c hc => by rw [hcs c hc]; decide)]
        simp [sumLen]
      have hbl : buildLine width [cs] = ([], [cs.drop width]) := by
        unfold buildLine
        rw [hgre]
        show (if width < cs.length then _ else _) = _
        rw [if_pos hlen]
        dsimp only
        rw [he]
        unfold dropTrailingWs
        have htake : (cs.take width).all pyIsSpace = true := by
          rw [List.all_eq_true]
          intro c hc
          rw [hcs c (mem_of_mem_take cs width c hc)]
          decide
        simp [htake]
      rw [hbl]
      rw [if_pos (show (([] : List (List Char))).isEmpty = true from rfl)]
      refine ih f (by omega) (cs.drop width) ?_ ?_
      · intro c hc
        exact hcs c (List.mem_of_mem_drop hc)
      · rw [List.length_drop]
        omega

theorem pyWrap_all_space (s : List Char) (width : Nat) (hw : 0 < width)
    (hs : ∀ c ∈ s, pySpace c = true) : pyWrap s width = [] := by
  unfold pyWrap
  by_cases hm : munge s = []
  · rw [hm]
    rfl
  · have hsp : splitRuns (munge s) = [munge s] :=
      splitRuns_all_space (munge s) (munge_all_space s hs) hm
    rw [hsp]
    refine wrapGo_one_space_chunk width hw _ (munge s) (munge_all_space s hs) ?_
    simp [sumLen]

theorem add_content_tline_all_space (tb : TableBuilder) (s : List Char) (center : Bool)
    (hs : ∀ c ∈ s, pySpace c = true) (hsize : 5 ≤ tb.table_size) :
    add_content_tline tb s center = tb := by
  have hwrap : pyWrap s (tb.table_size - 4) = [] :=
    pyWrap_all_space s (tb.table_size - 4) (by omega) hs
  simp [add_content_tline, content_tlines, hwrap]

/-- C10: a string of whitespace characters only (the empty string included)
wraps to no lines at all, so `_add_content_tline` leaves the buffer
untouched, and inside `add_section`/`add_header` such a line contributes
nothing while the surrounding border lines are still emitted. -/
theorem c10_whitespace_only_contributes_nothing (tb : TableBuilder) (s : List Char)
    (center : Bool) (hs : ∀ c ∈ s, pySpace c = true) (hsize : 5 ≤ tb.table_size) :
    pyWrap s (tb.table_size - 4) = [] ∧
    add_content_tline tb s center = tb ∧
    (add_section tb [s]).table_lines =
      tb.table_lines ++
        (if tb.table_lines.length = 0 then [border_line tb.table_size] else []) ++
        [border_line tb.table_size] ∧
    (add_header tb s).table_lines =
      tb.table_lines ++
        (if tb.table_lines.length = 0 then [border_line tb.table_size] else []) ++
        [border_line tb.table_size] := by
  have hwrap : pyWrap s (tb.table_size - 4) = [] :=
    pyWrap_all_space s (tb.table_size - 4) (by omega) hs
  refine ⟨hwrap, add_content_tline_all_space tb s center hs hsize, ?_, ?_⟩
  · have h := (add_section_lines_spec tb [s]).1
    rw [h]
    simp [content_tlines, hwrap]
  · have hsz1 : (if tb.table_lines.length = 0 then add_border_tline tb else tb).table_size =
        tb.table_size := by split <;> rfl
    have hl1 : (if tb.table_lines.length = 0 then add_border_tline tb else tb).table_lines =
        tb.table_lines ++
          (if tb.table_lines.length = 0 then [border_line tb.table_size] else []) := by
      split
      · rename_i h
        have h0 : tb.table_lines = [] := List.eq_nil_of_length_eq_zero h
        simp [add_border_tline, h0]
      · simp
    unfold add_header
    dsimp only
    rw [add_content_tline_all_space _ s true hs (by rw [hsz1]; omega)]
    rw [show ∀ t : TableBuilder, (add_border_tline t).table_lines =
        t.table_lines ++ [border_line t.table_size] from fun _ => rfl]
    rw [hsz1, hl1]

/-- Witness for C10 at a tab-and-space string on a fresh width-20 builder. -/
theorem c10_witness :
    pyWrap [' ', '\t'] ((TableBuilder.mk 20 []).table_size - 4) = [] ∧
    add_content_tline (TableBuilder.mk 20 []) [' ', '\t'] true = TableBuilder.mk 20 [] ∧
    (add_section (TableBuilder.mk 20 []) [[' ', '\t']]).table_lines =
      (TableBuilder.mk 20 []).table_lines ++
        (if (TableBuilder.mk 20 []).table_lines.length = 0
          then [border_line (TableBuilder.mk 20 []).table_size] else []) ++
        [border_line (TableBuilder.mk 20 []).table_size] ∧
    (add_header (TableBuilder.mk 20 []) [' ', '\t']).table_lines =
      (TableBuilder.mk 20 []).table_lines ++
        (if (TableBuilder.mk 20 []).table_lines.length = 0
          then [border_line (TableBuilder.mk 20 []).table_size] else []) ++
        [border_line (TableBuilder.mk 20 []).table_size] :=
  c10_whitespace_only_contributes_nothing (TableBuilder.mk 20 []) [' ', '\t'] true
    (by decide) (by decide)

/-! ## C6: the news header -/

/-- A small concrete input record (no languages, no currencies), with the
news list left as a parameter. -/
def demoInfo (news : List NewsDTO) : LocationInfoDTO :=
  { location :=
      { name := ("N").toList
        capital := ("C").toList
        latitude := ("1.0").toList
        longitude := ("2.0").toList
        region := ("R").toList
        subregion := ("SR").toList
        area := none
        population := 0
        languages := []
        timezones := [("UTC+03:00").toList] }
    weather :=
      { temp := ("1").toList
        wind_speed := ("2").toList
        visibility := ("3").toList
        description := ("ok").toList }
    currency_rates := []
    news := news }

/-- C6 (code bug): line 63 of `renderer.py` calls `tb.add_header('НОВОСТИ')`
without `await`, so the coroutine never runs and the centered "НОВОСТИ"
header line is never appended; only the following awaited `add_section` with
the news titles takes effect.  On a record with one news item the output
contains the title's section line but no centered "НОВОСТИ" line (one news
item adds two lines: title and border), while the claim — matching the
evident intent, since every other section is headed the same way — requires
the header.  With an empty news list the news section is omitted entirely,
as the claim states. -/
theorem c6_code_bug_missing_news_header :
    ((renderLines (demoInfo [⟨("x").toList⟩]) (("T").toList)).length =
      (renderLines (demoInfo []) (("T").toList)).length + 2) ∧
    ((content_tlines 120 (("НОВОСТИ").toList) true).headD [] ∉
      renderLines (demoInfo [⟨("x").toList⟩]) (("T").toList)) ∧
    ((content_tlines 120 (("x").toList) false).headD [] ∈
      renderLines (demoInfo [⟨("x").toList⟩]) (("T").toList)) ∧
    ((content_tlines 120 (("x").toList) false).headD [] ∉
      renderLines (demoInfo []) (("T").toList)) := by
  decide

/-! ## C2: a single short section line -/

/-- `small` occurs contiguously inside `big`. -/
def hasSubstring (small big : List Char) : Prop :=
  ∃ pre post, big = pre ++ small ++ post

theorem splitRuns_flatten_and_ne :
    ∀ t : List Char, (splitRuns t).flatten = t ∧ ∀ r ∈ splitRuns t, r ≠ [] := by
  intro t
  induction t with
  | nil => exact ⟨rfl, by simp [splitRuns]⟩
  | cons c rest ih =>
    cases h : splitRuns rest with
    | nil =>
      have hrest : rest = [] := by
        have h1 := ih.1
        rw [h] at h1
        simpa using h1.symm
      subst hrest
      refine ⟨rfl, ?_⟩
      rw [show splitRuns [c] = [[c]] from rfl]
      simp
    | cons r rs =>
      cases r with
      | nil => exact absurd rfl (ih.2 [] (by rw [h]; exact List.mem_cons_self _ _))
      | cons x xs =>
        have hsp : splitRuns (c :: rest) =
            if pySpace c = pySpace x then (c :: x :: xs) :: rs
            else [c] :: (x :: xs) :: rs := by
          unfold splitRuns
          rw [h]
        have hfl : (x :: xs) ++ rs.flatten = rest := by
          have h1 := ih.1
          rw [h, List.flatten_cons] at h1
          exact h1
        rw [hsp]
        constructor
        · split
          · rw [List.flatten_cons, List.cons_append, hfl]
          · rw [List.flatten_cons, List.flatten_cons, List.singleton_append, hfl]
        · intro q hq
          split at hq
          · rcases List.mem_cons.mp hq with hh | hh
            · rw [hh]; simp
            · exact ih.2 q (by rw [h]; exact List.mem_cons_of_mem _ hh)
          · rcases List.mem_cons.mp hq with hh | hh
            · rw [hh]; simp
            · exact ih.2 q (by rw [h]; exact hh)

theorem expandtabsGo_eq_self (s : List Char) (h : ∀ c ∈ s, c ≠ '\t') :
    ∀ col : Nat, expandtabsGo col s = s := by
  induction s with
  | nil => intro col; rfl
  | cons a rest ih =>
    intro col
    have ha : a ≠ '\t' := h a (List.mem_cons_self a rest)
    have hrest : ∀ c ∈ rest, c ≠ '\t' := fun c hc => h c (List.mem_cons_of_mem a hc)
    unfold expandtabsGo
    rw [if_neg ha]
    split
    · rw [ih hrest 0]
    · rw [ih hrest (col + 1)]

theorem munge_eq_self (t : List Char) (h : ∀ c ∈ t, c = ' ' ∨ pySpace c = false) :
    munge t = t := by
  unfold munge
  have htab : ∀ c ∈ t, c ≠ '\t' := by
    intro c hc heq
    rcases h c hc with h1 | h1
    · rw [heq] at h1; exact absurd h1 (by decide)
    · rw [heq] at h1; exact absurd h1 (by decide)
  rw [expandtabsGo_eq_self t htab 0]
  conv_rhs => rw [← List.map_id t]
  refine List.map_congr_left ?_
  intro c hc
  rcases h c hc with h1 | h1
  · rw [h1]; rfl
  · rw [if_neg (by rw [h1]; exact Bool.false_ne_true)]
    rfl

theorem greedy_all (width : Nat) :
    ∀ (cs : List (List Char)) (curLen : Nat), curLen + sumLen cs ≤ width →
      greedy width curLen cs = (cs, []) := by
  intro cs
  induction cs with
  | nil => intro curLen _; rfl
  | cons c rest ih =>
    intro curLen hle
    rw [sumLen_cons] at hle
    unfold greedy
    rw [if_pos (by omega)]
    rw [ih (curLen + c.length) (by omega)]

theorem wrapGo_all_fit (width fuel : Nat) (chunks : List (List Char))
    (hfit : sumLen chunks ≤ width) (hfuel : 0 < fuel)
    (hne : dropTrailingWs chunks ≠ []) :
    wrapGo width fuel false chunks = [(dropTrailingWs chunks).flatten] := by
  obtain ⟨f, rfl⟩ : ∃ f, fuel = f + 1 := ⟨fuel - 1, by omega⟩
  cases chunks with
  | nil => exact absurd rfl hne
  | cons c rest =>
    have hstep : wrapGo width (f + 1) false (c :: rest) =
        (if (buildLine width (c :: rest)).1.isEmpty then
          wrapGo width f false (buildLine width (c :: rest)).2
         else (buildLine width (c :: rest)).1.flatten ::
           wrapGo width f true (buildLine width (c :: rest)).2) := rfl
    have hbl : buildLine width (c :: rest) = (dropTrailingWs (c :: rest), []) := by
      unfold buildLine
      rw [greedy_all width (c :: rest) 0 (by omega)]
    rw [hstep, hbl]
    rw [if_neg (by simpa using hne)]
    rw [wrapGo_nil]

theorem pyWrap_single (t : List Char) (width : Nat)
    (hmu : munge t = t) (hlen : t.length ≤ width)
    (hne : dropTrailingWs (splitRuns t) ≠ []) :
    pyWrap t width = [(dropTrailingWs (splitRuns t)).flatten] := by
  unfold pyWrap
  rw [hmu]
  refine wrapGo_all_fit width _ (splitRuns t) ?_ (by omega) hne
  have : (splitRuns t).flatten.length = t.length :=
    congrArg List.length (splitRuns_flatten_and_ne t).1
  rw [length_flatten_eq_sumLen] at this
  omega

theorem dropTrailingWs_decomp (t : List Char)
    (hchars : ∀ c ∈ t, c = ' ' ∨ pyIsSpace c = false)
    (hword : ∃ c ∈ t, pyIsSpace c = false) :
    dropTrailingWs (splitRuns t) ≠ [] ∧
    ∃ k, (dropTrailingWs (splitRuns t)).flatten ++ List.replicate k ' ' = t := by
  have hfl : (splitRuns t).flatten = t := (splitRuns_flatten_and_ne t).1
  obtain ⟨c0, hc0t, hc0⟩ := hword
  have hc0fl : c0 ∈ (splitRuns t).flatten := by rw [hfl]; exact hc0t
  obtain ⟨r0, hr0, hc0r⟩ := List.mem_flatten.mp hc0fl
  have hr0w : ¬(r0.all pyIsSpace = true) := by
    intro hall
    have := List.all_eq_true.mp hall c0 hc0r
    rw [hc0] at this
    exact absurd this (by decide)
  cases hlast : (splitRuns t).getLast? with
  | none =>
    rw [List.getLast?_eq_none_iff] at hlast
    rw [hlast] at hr0
    simp at hr0
  | some last =>
    have hrne : splitRuns t ≠ [] := by
      intro hx
      rw [List.getLast?_eq_none_iff.mpr hx] at hlast
      exact Option.noConfusion hlast
    have hlastmem : last ∈ splitRuns t := List.mem_of_mem_getLast? hlast
    by_cases hall : last.all pyIsSpace = true
    · have hdt : dropTrailingWs (splitRuns t) = (splitRuns t).dropLast := by
        unfold dropTrailingWs
        rw [hlast]
        dsimp only
        rw [if_pos hall]
      have hlasteq : last = (splitRuns t).getLast hrne := by
        have := List.getLast?_eq_getLast (splitRuns t) hrne
        rw [this] at hlast
        exact (Option.some.inj hlast).symm
      have hsplit : (splitRuns t).dropLast ++ [last] = splitRuns t := by
        rw [hlasteq]
        exact List.dropLast_concat_getLast hrne
      rw [hdt]
      constructor
      · intro hnil
        rw [← hsplit, hnil] at hr0
        simp at hr0
        rw [hr0] at hr0w
        exact hr0w hall
      · refine ⟨last.length, ?_⟩
        have hlastsp : ∀ c ∈ last, c = ' ' := by
          intro c hcl
          have hct : c ∈ t := by
            rw [← hfl]
            exact List.mem_flatten.mpr ⟨last, hlastmem, hcl⟩
          rcases hchars c hct with h1 | h1
          · exact h1
          · have := List.all_eq_true.mp hall c hcl
            rw [h1] at this
            exact absurd this (by decide)
        have hrep : last = List.replicate last.length ' ' := List.eq_replicate_of_mem hlastsp
        rw [← hrep]
        have : ((splitRuns t).dropLast ++ [last]).flatten = t := by rw [hsplit, hfl]
        rw [List.flatten_append] at this
        simpa using this
    · have hdt : dropTrailingWs (splitRuns t) = splitRuns t := by
        unfold dropTrailingWs
        rw [hlast]
        dsimp only
        rw [if_neg hall]
      rw [hdt]
      exact ⟨hrne, 0, by simp [hfl]⟩

theorem replTop_border_line (W : Nat) :
    replTop (border_line W) = '╔' :: List.replicate (W - 2) '═' ++ ['╗'] := by
  unfold replTop pyReplaceChar border_line
  simp

theorem replBot_border_line (W : Nat) :
    replBot (border_line W) = '╚' :: List.replicate (W - 2) '═' ++ ['╝'] := by
  unfold replBot pyReplaceChar border_line
  simp

/-- C2 (amended): for non-empty `t` shorter than the content width whose
characters are spaces or non-whitespace, with at least one non-space
character, `add_section(t)` on a fresh builder followed by `get_table` yields
exactly 3 lines — a corner border line, one left-padded content line
containing `t`, and a corner border line — where the first and last lines
use the corner characters, not the interior `'╠'`/`'╣'`.  (`r` is `t` with
its trailing spaces dropped, which is what the wrap step emits; the padding
restores them, so the line still contains `t` contiguously.) -/
theorem c2_amended_single_short_section (W : Nat) (hW : 20 ≤ W) (t : List Char)
    (hne : t ≠ []) (hlen : t.length < W - 4)
    (hchars : ∀ c ∈ t, c = ' ' ∨ pyIsSpace c = false)
    (hword : ∃ c ∈ t, c ≠ ' ') :
    ∃ r k, t = r ++ List.replicate k ' ' ∧
      pyWrap t (W - 4) = [r] ∧
      getTableLines (add_section ⟨W, []⟩ [t]) =
        [ '╔' :: List.replicate (W - 2) '═' ++ ['╗'],
          '║' :: ' ' :: (r ++ List.replicate (W - 4 - r.length) ' ') ++ [' ', '║'],
          '╚' :: List.replicate (W - 2) '═' ++ ['╝'] ] ∧
      hasSubstring t
        ('║' :: ' ' :: (r ++ List.replicate (W - 4 - r.length) ' ') ++ [' ', '║']) := by
  have hwordps : ∃ c ∈ t, pyIsSpace c = false := by
    obtain ⟨c, hc, hcs⟩ := hword
    rcases hchars c hc with h1 | h1
    · exact absurd h1 hcs
    · exact ⟨c, hc, h1⟩
  have hcharsAscii : ∀ c ∈ t, c = ' ' ∨ pySpace c = false := by
    intro c hc
    refine (hchars c hc).imp id (fun h1 => ?_)
    cases hps : pySpace c with
    | false => rfl
    | true =>
      rw [pySpace_imp_uni hps] at h1
      exact Bool.noConfusion h1
  have hmu : munge t = t := munge_eq_self t hcharsAscii
  obtain ⟨hne', k, hdec⟩ := dropTrailingWs_decomp t hchars hwordps
  set r := (dropTrailingWs (splitRuns t)).flatten with hr
  have hpw : pyWrap t (W - 4) = [r] :=
    pyWrap_single t (W - 4) hmu (Nat.le_of_lt hlen) hne'
  have hsum : r.length + k = t.length := by
    have := congrArg List.length hdec
    simpa using this
  set mid := '║' :: ' ' :: (r ++ List.replicate (W - 4 - r.length) ' ') ++ [' ', '║'] with hmid
  have hct : content_tlines W t false = [mid] := by
    unfold content_tlines
    rw [hpw]
    simp [hmid]
  have hsec : (add_section ⟨W, []⟩ [t]).table_lines = [border_line W, mid, border_line W] := by
    have h := (add_section_lines_spec ⟨W, []⟩ [t]).1
    simpa [hct] using h
  have hsz : (add_section (TableBuilder.mk W []) [t]).table_size = W :=
    applyOp_table_size ⟨W, []⟩ (TbOp.sec [t])
  have hstruct : add_section ⟨W, []⟩ [t] =
      TableBuilder.mk W [border_line W, mid, border_line W] := by
    have heta : add_section (TableBuilder.mk W []) [t] =
        TableBuilder.mk (add_section (TableBuilder.mk W []) [t]).table_size
          (add_section (TableBuilder.mk W []) [t]).table_lines := rfl
    rw [heta, hsz, hsec]
  have hgtl : getTableLines (TableBuilder.mk W [border_line W, mid, border_line W]) =
      [replTop (border_line W), mid, replBot (border_line W)] := rfl
  refine ⟨r, k, hdec.symm, hpw, ?_, ?_⟩
  · rw [hstruct, hgtl, replTop_border_line, replBot_border_line]
  · have hk : k ≤ W - 4 - r.length := by omega
    refine ⟨['║', ' '], List.replicate (W - 4 - r.length - k) ' ' ++ [' ', '║'], ?_⟩
    rw [← hdec]
    rw [show W - 4 - r.length = k + (W - 4 - r.length - k) by omega, List.replicate_add]
    simp
    rw [List.replicate_add, List.append_assoc]

/-- C2 counterexample: for `t = "hi"` (non-empty, shorter than the content
width) on a fresh default builder, `add_section(t)` then `get_table` yields
3 lines — border, content, border — not the 4 the claim states. -/
theorem c2_counterexample :
    (getTableLines (add_section ⟨120, []⟩ [("hi").toList])).length = 3 ∧
      (getTableLines (add_section ⟨120, []⟩ [("hi").toList])).length ≠ 4 := by
  decide

/-- Witness for C2 (amended) at `W = 20`, `t = "hi"`. -/
theorem c2_witness :
    ∃ r k, ("hi").toList = r ++ List.replicate k ' ' ∧
      pyWrap (("hi").toList) (20 - 4) = [r] ∧
      getTableLines (add_section ⟨20, []⟩ [("hi").toList]) =
        [ '╔' :: List.replicate (20 - 2) '═' ++ ['╗'],
          '║' :: ' ' :: (r ++ List.replicate (20 - 4 - r.length) ' ') ++ [' ', '║'],
          '╚' :: List.replicate (20 - 2) '═' ++ ['╝'] ] ∧
      hasSubstring (("hi").toList)
        ('║' :: ' ' :: (r ++ List.replicate (20 - 4 - r.length) ' ') ++ [' ', '║']) :=
  c2_amended_single_short_section 20 (by decide) (("hi").toList) (by decide) (by decide)
    (by decide) (by decide)

/-! ## C4: word preservation under wrapping -/

/-- A chunk is homogeneous: all whitespace or all non-whitespace. -/
def chunkHomog (c : List Char) : Prop :=
  c.all pySpace = true ∨ c.all (fun x => !pySpace x) = true

/-- Every chunk is a non-empty homogeneous run. -/
def Runs (cs : List (List Char)) : Prop := ∀ c ∈ cs, c ≠ [] ∧ chunkHomog c

/-- Adjacent chunks alternate between whitespace and non-whitespace. -/
def Alt (cs : List (List Char)) : Prop :=
  List.Chain' (fun a b => a.all pySpace ≠ b.all pySpace) cs

theorem homog_forall (r : List Char) (h : chunkHomog r) :
    ∀ c ∈ r, pySpace c = r.all pySpace := by
  rcases h with h | h
  · intro c hc
    rw [h]
    exact List.all_eq_true.mp h c hc
  · intro c hc
    have hc' := List.all_eq_true.mp h c hc
    simp only [Bool.not_eq_true'] at hc'
    rw [hc']
    cases hall : r.all pySpace with
    | false => rfl
    | true =>
      have := List.all_eq_true.mp hall c hc
      rw [hc'] at this
      exact this

theorem splitRuns_head (l : List Char) (x : Char) (xs : List Char) (rs : List (List Char))
    (h : splitRuns l = (x :: xs) :: rs) : l.head? = some x := by
  have hfl := (splitRuns_flatten_and_ne l).1
  rw [h] at hfl
  rw [← hfl]
  simp

theorem splitRuns_cons (c : Char) (rest : List Char) :
    splitRuns (c :: rest) =
      match splitRuns rest with
      | [] => [[c]]
      | [] :: rs => [c] :: [] :: rs
      | (x :: xs) :: rs =>
        if pySpace c = pySpace x then (c :: x :: xs) :: rs else [c] :: (x :: xs) :: rs := rfl

theorem splitRuns_run_append (b : Bool) :
    ∀ (r l : List Char), r ≠ [] → (∀ c ∈ r, pySpace c = b) →
      (∀ h, l.head? = some h → pySpace h = !b) →
      splitRuns (r ++ l) = r :: splitRuns l := by
  intro r
  induction r with
  | nil => intro l h; exact absurd rfl h
  | cons a r' ih =>
    intro l _ hrb hl
    have hab : pySpace a = b := hrb a (List.mem_cons_self a r')
    cases r' with
    | nil =>
      show splitRuns (a :: l) = [a] :: splitRuns l
      cases hs : splitRuns l with
      | nil =>
        have hleq : l = [] := by
          have := (splitRuns_flatten_and_ne l).1
          rw [hs] at this
          simpa using this.symm
        subst hleq
        rfl
      | cons q qs =>
        cases q with
        | nil => exact absurd rfl ((splitRuns_flatten_and_ne l).2 [] (by rw [hs]; simp))
        | cons x xs =>
          have hx : l.head? = some x := splitRuns_head l x xs qs hs
          have hxb : pySpace x = !b := hl x hx
          rw [splitRuns_cons, hs]
          dsimp only
          rw [if_neg (by rw [hab, hxb]; cases b <;> decide)]
    | cons a2 r'' =>
      have hr' : ∀ c ∈ a2 :: r'', pySpace c = b :=
        fun c hc => hrb c (List.mem_cons_of_mem a hc)
      have ha2 : pySpace a2 = b := hr' a2 (List.mem_cons_self a2 r'')
      have hihr := ih l (by simp) hr' hl
      show splitRuns (a :: ((a2 :: r'') ++ l)) = (a :: a2 :: r'') :: splitRuns l
      rw [splitRuns_cons, hihr]
      dsimp only
      rw [if_pos (by rw [hab, ha2])]

theorem splitRuns_flatten_of_runs :
    ∀ (cs : List (List Char)), Runs cs → Alt cs → splitRuns cs.flatten = cs := by
  intro cs
  induction cs with
  | nil => intro _ _; rfl
  | cons r rs ih =>
    intro hruns halt
    have hr := hruns r (List.mem_cons_self r rs)
    have hrunsTail : Runs rs := fun c hc => hruns c (List.mem_cons_of_mem r hc)
    have haltTail : Alt rs := List.Chain'.tail halt
    rw [List.flatten_cons]
    rw [splitRuns_run_append (r.all pySpace) r rs.flatten hr.1
      (homog_forall r hr.2) ?_]
    · rw [ih hrunsTail haltTail]
    · intro h hh
      cases rs with
      | nil => simp at hh
      | cons r2 rs2 =>
        have hr2 := hruns r2 (List.mem_cons_of_mem r (List.mem_cons_self r2 rs2))
        rw [List.flatten_cons] at hh
        have hmem : h ∈ r2 := by
          cases r2 with
          | nil => exact absurd rfl hr2.1
          | cons y ys =>
            have : y = h := by simpa using hh
            rw [← this]
            exact List.mem_cons_self y ys
        have hcls : pySpace h = r2.all pySpace := homog_forall r2 hr2.2 h hmem
        have hne2 : r.all pySpace ≠ r2.all pySpace := (List.chain'_cons.mp halt).1
        rw [hcls]
        cases hb : r.all pySpace <;> cases hb2 : r2.all pySpace <;>
          rw [hb, hb2] at hne2 <;> first
            | rfl
            | exact absurd rfl hne2

theorem pyWords_flatten_of_runs (cs : List (List Char)) (hruns : Runs cs) (halt : Alt cs) :
    pyWords cs.flatten = cs.filter (fun c => !c.all pySpace) := by
  unfold pyWords
  rw [splitRuns_flatten_of_runs cs hruns halt]

theorem filter_dropTrailingWs (l : List (List Char))
    (hcl : ∀ c ∈ l, c.all pyIsSpace = c.all pySpace) :
    (dropTrailingWs l).filter (fun c => !c.all pySpace) =
      l.filter (fun c => !c.all pySpace) := by
  unfold dropTrailingWs
  cases hlast : l.getLast? with
  | none => rfl
  | some last =>
    dsimp only
    split
    · rename_i hall
      have hlne : l ≠ [] := by
        intro hx
        rw [List.getLast?_eq_none_iff.mpr hx] at hlast
        exact Option.noConfusion hlast
      have hlasteq : last = l.getLast hlne := by
        have := List.getLast?_eq_getLast l hlne
        rw [this] at hlast
        exact (Option.some.inj hlast).symm
      conv_rhs => rw [← List.dropLast_concat_getLast hlne]
      rw [List.filter_append]
      have hps : last.all pySpace = true := by
        rw [← hcl last (List.mem_of_mem_getLast? hlast)]
        exact hall
      have : List.filter (fun c => !c.all pySpace) [l.getLast hlne] = [] := by
        rw [← hlasteq]
        simp [hps]
      rw [this, List.append_nil]
    · rfl

theorem alt_head_replace (a a' : List Char) (l : List (List Char))
    (h : Alt (a :: l)) (heq : a'.all pySpace = a.all pySpace) : Alt (a' :: l) := by
  cases l with
  | nil => exact List.chain'_singleton a'
  | cons b bs =>
    rw [Alt, List.chain'_cons]
    have h2 := List.chain'_cons.mp h
    exact ⟨by rw [heq]; exact h2.1, h2.2⟩

theorem greedy_cons_eq (width curLen : Nat) (c : List Char) (rest : List (List Char)) :
    greedy width curLen (c :: rest) =
      (if curLen + c.length ≤ width then
        (c :: (greedy width (curLen + c.length) rest).1,
          (greedy width (curLen + c.length) rest).2)
       else ([], c :: rest)) := rfl

theorem greedy_rem_head (width : Nat) :
    ∀ (cs : List (List Char)) (curLen : Nat) (r : List Char) (rs : List (List Char)),
      (greedy width curLen cs).2 = r :: rs →
      width < curLen + sumLen (greedy width curLen cs).1 + r.length := by
  intro cs
  induction cs with
  | nil => intro curLen r rs h; simp [greedy] at h
  | cons c rest ih =>
    intro curLen r rs h
    by_cases hfit : curLen + c.length ≤ width
    · rw [greedy_cons_eq, if_pos hfit] at h ⊢
      dsimp only at h ⊢
      have := ih (curLen + c.length) r rs h
      rw [sumLen_cons]
      omega
    · rw [greedy_cons_eq, if_neg hfit] at h ⊢
      dsimp only at h ⊢
      have hc : c = r := (List.cons.inj h).1
      rw [sumLen_nil, ← hc]
      omega

theorem buildLine_nil (width : Nat) : buildLine width [] = ([], []) := rfl

theorem buildLine_eq_of_rem_nil (width : Nat) (chunks : List (List Char))
    (h : (greedy width 0 chunks).2 = []) :
    buildLine width chunks = (dropTrailingWs (greedy width 0 chunks).1, []) := by
  unfold buildLine
  dsimp only
  split
  · rfl
  · rename_i r rs heq
    rw [h] at heq
    exact absurd heq (by simp)

theorem buildLine_eq_of_long (width : Nat) (chunks : List (List Char)) (r : List Char)
    (rs : List (List Char)) (h : (greedy width 0 chunks).2 = r :: rs)
    (hlong : width < r.length) :
    buildLine width chunks =
      (dropTrailingWs ((greedy width 0 chunks).1 ++
          [r.take (longWordEnd r (width - sumLen (greedy width 0 chunks).1))]),
        (r.drop (longWordEnd r (width - sumLen (greedy width 0 chunks).1))) :: rs) := by
  unfold buildLine
  dsimp only
  split
  · rename_i heq
    rw [h] at heq
    exact absurd heq.symm (by simp)
  · rename_i r' rs' heq
    rw [h] at heq
    obtain ⟨h1, h2⟩ := List.cons.inj heq
    subst h1
    subst h2
    rw [if_pos hlong]

theorem buildLine_eq_of_fit (width : Nat) (chunks : List (List Char)) (r : List Char)
    (rs : List (List Char)) (h : (greedy width 0 chunks).2 = r :: rs)
    (hfit : ¬ width < r.length) :
    buildLine width chunks = (dropTrailingWs (greedy width 0 chunks).1, r :: rs) := by
  unfold buildLine
  dsimp only
  split
  · rename_i heq
    rw [h] at heq
    exact absurd heq.symm (by simp)
  · rename_i r' rs' heq
    rw [h] at heq
    obtain ⟨h1, h2⟩ := List.cons.inj heq
    subst h1
    subst h2
    rw [if_neg hfit]

theorem wrapGo_cons_eq (width f : Nat) (hasLines : Bool) (c : List Char)
    (rest : List (List Char)) :
    wrapGo width (f + 1) hasLines (c :: rest) =
      (if hasLines && c.all pyIsSpace then
        (if (buildLine width rest).1.isEmpty then
          wrapGo width f hasLines (buildLine width rest).2
         else (buildLine width rest).1.flatten :: wrapGo width f true (buildLine width rest).2)
       else
        (if (buildLine width (c :: rest)).1.isEmpty then
          wrapGo width f hasLines (buildLine width (c :: rest)).2
         else (buildLine width (c :: rest)).1.flatten ::
           wrapGo width f true (buildLine width (c :: rest)).2)) := by
  rw [show wrapGo width (f + 1) hasLines (c :: rest) =
      (let chunks1 := if hasLines && c.all pyIsSpace then rest else c :: rest
       let p := buildLine width chunks1
       if p.1.isEmpty then wrapGo width f hasLines p.2
       else p.1.flatten :: wrapGo width f true p.2) from rfl]
  dsimp only
  by_cases h : (hasLines && c.all pyIsSpace) = true
  · rw [if_pos h, if_pos h]
  · rw [if_neg h, if_neg h]

theorem dropTrailingWs_runs_alt (l : List (List Char)) (hruns : Runs l) (halt : Alt l) :
    Runs (dropTrailingWs l) ∧ Alt (dropTrailingWs l) := by
  unfold dropTrailingWs
  cases hlast : l.getLast? with
  | none => exact ⟨hruns, halt⟩
  | some last =>
    dsimp only
    split
    · refine ⟨fun x hx => hruns x ((List.dropLast_prefix l).subset hx),
        List.Chain'.prefix halt (List.dropLast_prefix l)⟩
    · exact ⟨hruns, halt⟩

theorem all_take_pySpace (r : List Char) (n : Nat) (h : r.all pySpace = true) :
    (r.take n).all pySpace = true := by
  rw [List.all_eq_true]
  intro c hc
  exact List.all_eq_true.mp h c (List.mem_of_mem_take hc)

theorem all_drop_pySpace (r : List Char) (n : Nat) (h : r.all pySpace = true) :
    (r.drop n).all pySpace = true := by
  rw [List.all_eq_true]
  intro c hc
  exact List.all_eq_true.mp h c (List.mem_of_mem_drop hc)

theorem longWordEnd_eq_of_ws (r : List Char) (sl : Nat) (h : r.all pySpace = true) :
    longWordEnd r sl = sl := by
  unfold longWordEnd
  rw [rfindHyphen_none r sl ?_]
  intro c hc heq
  have := List.all_eq_true.mp h c hc
  rw [heq] at this
  exact absurd this (by decide)

theorem ws_not_word (r : List Char) (hne : r ≠ []) (hws : r.all pySpace = true)
    (hword : r.all (fun x => !pySpace x) = true) : False := by
  cases r with
  | nil => exact absurd rfl hne
  | cons x xs =>
    have h1 := List.all_eq_true.mp hws x (List.mem_cons_self x xs)
    have h2 := List.all_eq_true.mp hword x (List.mem_cons_self x xs)
    rw [h1] at h2
    exact absurd h2 (by decide)

theorem wrapGo_words (width : Nat) (hw : 0 < width) :
    ∀ (n : Nat) (chunks : List (List Char)) (hasLines : Bool) (fuel : Nat),
      sumLen chunks + chunks.length ≤ n →
      sumLen chunks + chunks.length + 1 ≤ fuel →
      Runs chunks → Alt chunks →
      (∀ c ∈ chunks, c.all (fun x => !pySpace x) = true → c.length ≤ width) →
      (∀ c ∈ chunks, c.all pyIsSpace = c.all pySpace) →
      (wrapGo width fuel hasLines chunks).flatMap pyWords =
        chunks.filter (fun c => !c.all pySpace) := by
  intro n
  induction n using Nat.strong_induction_on with
  | _ n ih =>
    intro chunks hasLines fuel hn hfuel hruns halt hbound hclean
    cases chunks with
    | nil => rw [wrapGo_nil]; rfl
    | cons c rest =>
      obtain ⟨f, rfl⟩ : ∃ f, fuel = f + 1 := ⟨fuel - 1, by omega⟩
      have hcne : c ≠ [] := (hruns c (List.mem_cons_self c rest)).1
      have hclen : 1 ≤ c.length := List.length_pos.mpr hcne
      simp only [sumLen_cons, List.length_cons] at hn hfuel
      have hrunsRest : Runs rest := fun x hx => hruns x (List.mem_cons_of_mem c hx)
      have haltRest : Alt rest := List.Chain'.tail halt
      have hboundRest : ∀ x ∈ rest, x.all (fun y => !pySpace y) = true → x.length ≤ width :=
        fun x hx => hbound x (List.mem_cons_of_mem c hx)
      have hcleanRest : ∀ x ∈ rest, x.all pyIsSpace = x.all pySpace :=
        fun x hx => hclean x (List.mem_cons_of_mem c hx)
      rw [wrapGo_cons_eq]
      by_cases hdrop : (hasLines && c.all pyIsSpace) = true
      · rw [if_pos hdrop]
        have hcws : c.all pySpace = true := by
          have h1 : hasLines = true ∧ c.all pyIsSpace = true := by simpa using hdrop
          rw [← hclean c (List.mem_cons_self c rest)]
          exact h1.2
        have hfilter : (c :: rest).filter (fun x => !x.all pySpace) =
            rest.filter (fun x => !x.all pySpace) := by
          rw [List.filter_cons]
          simp [hcws]
        rw [hfilter]
        cases rest with
        | nil =>
          rw [buildLine_nil]
          rw [if_pos (show (([] : List (List Char))).isEmpty = true from rfl)]
          rw [wrapGo_nil]
          rfl
        | cons c2 rest2 =>
          have hc2ws : c2.all pySpace = false := by
            have hne2 := (List.chain'_cons.mp halt).1
            rw [hcws] at hne2
            cases h2 : c2.all pySpace with
            | false => rfl
            | true => rw [h2] at hne2; exact absurd rfl hne2
          have hrw : wrapGo width (f + 1) hasLines (c2 :: rest2) =
              (if (buildLine width (c2 :: rest2)).1.isEmpty then
                wrapGo width f hasLines (buildLine width (c2 :: rest2)).2
               else (buildLine width (c2 :: rest2)).1.flatten ::
                 wrapGo width f true (buildLine width (c2 :: rest2)).2) := by
            rw [wrapGo_cons_eq]
            rw [if_neg (by
              simp [hcleanRest c2 (List.mem_cons_self c2 rest2), hc2ws])]
          rw [← hrw]
          refine ih (n - (c.length + 1)) (by omega) (c2 :: rest2) hasLines (f + 1) ?_ ?_
            hrunsRest haltRest hboundRest hcleanRest
          · simp only [sumLen_cons, List.length_cons]
            simp only [sumLen_cons, List.length_cons] at hn
            omega
          · simp only [sumLen_cons, List.length_cons]
            simp only [sumLen_cons, List.length_cons] at hfuel
            omega
      · rw [if_neg hdrop]
        have happ := greedy_append width (c :: rest) 0
        have hmemt : ∀ x ∈ (greedy width 0 (c :: rest)).1, x ∈ c :: rest := by
          intro x hx; rw [← happ]; exact List.mem_append_left _ hx
        have hmemr : ∀ x ∈ (greedy width 0 (c :: rest)).2, x ∈ c :: rest := by
          intro x hx; rw [← happ]; exact List.mem_append_right _ hx
        have haltapp : Alt ((greedy width 0 (c :: rest)).1 ++
            (greedy width 0 (c :: rest)).2) := by
          rw [happ]; exact halt
        have htAlt : Alt (greedy width 0 (c :: rest)).1 := (List.chain'_append.mp haltapp).1
        have hrAlt : Alt (greedy width 0 (c :: rest)).2 :=
          (List.chain'_append.mp haltapp).2.1
        have htRuns : Runs (greedy width 0 (c :: rest)).1 := fun x hx => hruns x (hmemt x hx)
        have hsumapp : sumLen (greedy width 0 (c :: rest)).1 +
            sumLen (greedy width 0 (c :: rest)).2 = c.length + sumLen rest := by
          have h1 := congrArg sumLen happ
          rw [sumLen_append, sumLen_cons] at h1
          exact h1
        have hlenapp : (greedy width 0 (c :: rest)).1.length +
            (greedy width 0 (c :: rest)).2.length = rest.length + 1 := by
          have h1 := congrArg List.length happ
          rw [List.length_append, List.length_cons] at h1
          exact h1
        have hfilterapp : (c :: rest).filter (fun x => !x.all pySpace) =
            (greedy width 0 (c :: rest)).1.filter (fun x => !x.all pySpace) ++
              (greedy width 0 (c :: rest)).2.filter (fun x => !x.all pySpace) := by
          conv_lhs => rw [← happ]
          rw [List.filter_append]
        cases hrem : (greedy width 0 (c :: rest)).2 with
        | nil =>
          rw [buildLine_eq_of_rem_nil width _ hrem]
          dsimp only
          have hdta := dropTrailingWs_runs_alt _ htRuns htAlt
          have hfeq := filter_dropTrailingWs (greedy width 0 (c :: rest)).1
            (fun x hx => hclean x (hmemt x hx))
          rw [hfilterapp, hrem]
          by_cases hline2 : (dropTrailingWs (greedy width 0 (c :: rest)).1).isEmpty = true
          · rw [if_pos hline2]
            rw [wrapGo_nil]
            have h0 : (greedy width 0 (c :: rest)).1.filter (fun x => !x.all pySpace) = [] := by
              rw [← hfeq, List.isEmpty_iff.mp hline2]
              rfl
            rw [h0]
            rfl
          · rw [if_neg hline2]
            rw [wrapGo_nil]
            rw [List.flatMap_cons]
            rw [pyWords_flatten_of_runs _ hdta.1 hdta.2]
            rw [hfeq]
            simp
        | cons r rs =>
          have hrmem : r ∈ c :: rest :=
            hmemr r (by rw [hrem]; exact List.mem_cons_self r rs)
          have hrr := hruns r hrmem
          have hremRuns : Runs (r :: rs) := by
            rw [← hrem]
            exact fun x hx => hruns x (hmemr x hx)
          have hremAlt' : Alt (r :: rs) := by rw [← hrem]; exact hrAlt
          have hrembound : ∀ x ∈ r :: rs,
              x.all (fun y => !pySpace y) = true → x.length ≤ width := by
            rw [← hrem]
            exact fun x hx => hbound x (hmemr x hx)
          have hrsRuns : Runs rs := fun x hx => hremRuns x (List.mem_cons_of_mem r hx)
          have hrsbound : ∀ x ∈ rs, x.all (fun y => !pySpace y) = true → x.length ≤ width :=
            fun x hx => hrembound x (List.mem_cons_of_mem r hx)
          have hremclean : ∀ x ∈ r :: rs, x.all pyIsSpace = x.all pySpace := by
            rw [← hrem]
            exact fun x hx => hclean x (hmemr x hx)
          rw [hrem, sumLen_cons] at hsumapp
          rw [hrem, List.length_cons] at hlenapp
          by_cases hlong : width < r.length
          · have hrws : r.all pySpace = true := by
              rcases hrr.2 with h1 | h1
              · exact h1
              · exact absurd (hrembound r (List.mem_cons_self r rs) h1) (by omega)
            rw [buildLine_eq_of_long width _ r rs hrem hlong]
            dsimp only
            set e := longWordEnd r (width - sumLen (greedy width 0 (c :: rest)).1) with hedef
            have hele : e ≤ width := by
              have h1 := longWordEnd_le r (width - sumLen (greedy width 0 (c :: rest)).1)
              omega
            have hpiecews : (r.take e).all pySpace = true := all_take_pySpace r e hrws
            have hdropws : (r.drop e).all pySpace = true := all_drop_pySpace r e hrws
            have hdl : (r.drop e).length = r.length - e := List.length_drop e r
            have hdropne : r.drop e ≠ [] := by
              intro hx
              rw [hx] at hdl
              simp at hdl
              omega
            have hline2 : dropTrailingWs ((greedy width 0 (c :: rest)).1 ++ [r.take e]) =
                (greedy width 0 (c :: rest)).1 := by
              unfold dropTrailingWs
              rw [List.getLast?_concat]
              dsimp only
              rw [if_pos (all_pySpace_imp_uni hpiecews), List.dropLast_concat]
            rw [hline2]
            have hrem2Runs : Runs ((r.drop e) :: rs) := by
              intro x hx
              rcases List.mem_cons.mp hx with hh | hh
              · subst hh
                exact ⟨hdropne, Or.inl hdropws⟩
              · exact hrsRuns x hh
            have hrem2Alt : Alt ((r.drop e) :: rs) :=
              alt_head_replace r (r.drop e) rs hremAlt' (by rw [hdropws, hrws])
            have hrem2bound : ∀ x ∈ (r.drop e) :: rs,
                x.all (fun y => !pySpace y) = true → x.length ≤ width := by
              intro x hx hword
              rcases List.mem_cons.mp hx with hh | hh
              · subst hh
                exact (ws_not_word _ hdropne hdropws hword).elim
              · exact hrsbound x hh hword
            have hrem2clean : ∀ x ∈ (r.drop e) :: rs, x.all pyIsSpace = x.all pySpace := by
              intro x hx
              rcases List.mem_cons.mp hx with hh | hh
              · subst hh
                rw [all_pySpace_imp_uni hdropws, hdropws]
              · exact hremclean x (List.mem_cons_of_mem r hh)
            have hkey : 1 ≤ sumLen (greedy width 0 (c :: rest)).1 +
                (greedy width 0 (c :: rest)).1.length + e := by
              cases htk : (greedy width 0 (c :: rest)).1 with
              | nil =>
                have he1 : e = width := by
                  rw [hedef, htk, sumLen_nil, Nat.sub_zero]
                  exact longWordEnd_eq_of_ws r width hrws
                omega
              | cons t ts =>
                rw [List.length_cons]
                omega
            have hmeas : (r.length - e) + sumLen rs + (rs.length + 1) + 1 ≤
                c.length + sumLen rest + (rest.length + 1) := by
              omega
            by_cases hempty : ((greedy width 0 (c :: rest)).1).isEmpty = true
            · rw [if_pos hempty]
              have htknil : (greedy width 0 (c :: rest)).1 = [] := List.isEmpty_iff.mp hempty
              have hrec := ih (n - 1) (by omega) ((r.drop e) :: rs) hasLines f
                (by simp only [sumLen_cons, List.length_cons]; rw [hdl]; omega)
                (by simp only [sumLen_cons, List.length_cons]; rw [hdl]; omega)
                hrem2Runs hrem2Alt hrem2bound hrem2clean
              rw [hrec, hfilterapp, hrem, htknil]
              rw [List.filter_cons, List.filter_cons]
              simp [hdropws, hrws]
            · rw [if_neg hempty]
              rw [List.flatMap_cons]
              rw [pyWords_flatten_of_runs _ htRuns htAlt]
              have hrec := ih (n - 1) (by omega) ((r.drop e) :: rs) true f
                (by simp only [sumLen_cons, List.length_cons]; rw [hdl]; omega)
                (by simp only [sumLen_cons, List.length_cons]; rw [hdl]; omega)
                hrem2Runs hrem2Alt hrem2bound hrem2clean
              rw [hrec, hfilterapp, hrem]
              rw [List.filter_cons, List.filter_cons]
              simp [hdropws, hrws]
          · rw [buildLine_eq_of_fit width _ r rs hrem hlong]
            dsimp only
            have htkne : (greedy width 0 (c :: rest)).1 ≠ [] := by
              intro hx
              have hhd := greedy_rem_head width (c :: rest) 0 r rs hrem
              rw [hx, sumLen_nil] at hhd
              omega
            have htklen : 1 ≤ (greedy width 0 (c :: rest)).1.length := List.length_pos.mpr htkne
            have htksum : 1 ≤ sumLen (greedy width 0 (c :: rest)).1 := by
              cases htk : (greedy width 0 (c :: rest)).1 with
              | nil => exact absurd htk htkne
              | cons t ts =>
                have htne : t ≠ [] :=
                  (htRuns t (by rw [htk]; exact List.mem_cons_self t ts)).1
                have := List.length_pos.mpr htne
                rw [sumLen_cons]
                omega
            have hdta := dropTrailingWs_runs_alt _ htRuns htAlt
            have hfeq := filter_dropTrailingWs (greedy width 0 (c :: rest)).1
              (fun x hx => hclean x (hmemt x hx))
            by_cases hempty : (dropTrailingWs (greedy width 0 (c :: rest)).1).isEmpty = true
            · rw [if_pos hempty]
              have hrec := ih (n - 1) (by omega) (r :: rs) hasLines f
                (by simp only [sumLen_cons, List.length_cons]; omega)
                (by simp only [sumLen_cons, List.length_cons]; omega)
                hremRuns hremAlt' hrembound hremclean
              rw [hrec, hfilterapp, hrem]
              have h0 : (greedy width 0 (c :: rest)).1.filter (fun x => !x.all pySpace) = [] := by
                rw [← hfeq, List.isEmpty_iff.mp hempty]
                rfl
              rw [h0]
              rfl
            · rw [if_neg hempty]
              rw [List.flatMap_cons]
              rw [pyWords_flatten_of_runs _ hdta.1 hdta.2]
              have hrec := ih (n - 1) (by omega) (r :: rs) true f
                (by simp only [sumLen_cons, List.length_cons]; omega)
                (by simp only [sumLen_cons, List.length_cons]; omega)
                hremRuns hremAlt' hrembound hremclean
              rw [hrec, hfeq, hfilterapp, hrem]

theorem homog_cons (c x : Char) (xs : List Char) (hcx : pySpace c = pySpace x)
    (h : chunkHomog (x :: xs)) : chunkHomog (c :: x :: xs) := by
  rcases h with h | h
  · left
    have hx := List.all_eq_true.mp h x (List.mem_cons_self x xs)
    simp [List.all_cons, hcx, hx, h]
  · right
    have hx := List.all_eq_true.mp h x (List.mem_cons_self x xs)
    simp only [Bool.not_eq_true'] at hx
    simp [List.all_cons, hcx, hx, h]

theorem all_cons_same_class (c x : Char) (xs : List Char) (hcx : pySpace c = pySpace x) :
    (c :: x :: xs).all pySpace = (x :: xs).all pySpace := by
  rw [List.all_cons, List.all_cons]
  rw [hcx]
  cases h : pySpace x <;> simp [h]

theorem splitRuns_runs_alt : ∀ t : List Char, Runs (splitRuns t) ∧ Alt (splitRuns t) := by
  intro t
  induction t with
  | nil =>
    constructor
    · intro c hc
      rw [show splitRuns [] = [] from rfl] at hc
      exact absurd hc (List.not_mem_nil c)
    · rw [show splitRuns [] = [] from rfl]
      exact List.chain'_nil
  | cons c rest ih =>
    cases hs : splitRuns rest with
    | nil =>
      rw [splitRuns_cons, hs]
      constructor
      · intro x hx
        have : x = [c] := by simpa using hx
        subst this
        refine ⟨by simp, ?_⟩
        cases h : pySpace c with
        | true => left; simp [h]
        | false => right; simp [h]
      · exact List.chain'_singleton [c]
    | cons q qs =>
      cases q with
      | nil => exact absurd rfl ((splitRuns_flatten_and_ne rest).2 [] (by rw [hs]; simp))
      | cons x xs =>
        rw [hs] at ih
        obtain ⟨ihr, iha⟩ := ih
        have hxhom := ihr (x :: xs) (List.mem_cons_self _ _)
        rw [splitRuns_cons, hs]
        dsimp only
        by_cases hcx : pySpace c = pySpace x
        · rw [if_pos hcx]
          constructor
          · intro y hy
            rcases List.mem_cons.mp hy with hh | hh
            · subst hh
              exact ⟨by simp, homog_cons c x xs hcx hxhom.2⟩
            · exact ihr y (List.mem_cons_of_mem _ hh)
          · exact alt_head_replace (x :: xs) (c :: x :: xs) qs iha
              (all_cons_same_class c x xs hcx)
        · rw [if_neg hcx]
          constructor
          · intro y hy
            rcases List.mem_cons.mp hy with hh | hh
            · subst hh
              refine ⟨by simp, ?_⟩
              cases h : pySpace c with
              | true => left; simp [h]
              | false => right; simp [h]
            · exact ihr y hh
          · rw [Alt, List.chain'_cons]
            refine ⟨?_, iha⟩
            have h1 : ([c] : List Char).all pySpace = pySpace c := by simp
            have h2 : (x :: xs).all pySpace = pySpace x :=
              (homog_forall (x :: xs) hxhom.2 x (List.mem_cons_self x xs)).symm
            rw [h1, h2]
            exact hcx

theorem all_pySpace_map (g : Char → Char) (hg : ∀ c, pySpace (g c) = pySpace c)
    (r : List Char) : (r.map g).all pySpace = r.all pySpace := by
  induction r with
  | nil => rfl
  | cons a as ih => simp [List.all_cons, hg, ih]

theorem splitRuns_map (g : Char → Char) (hg : ∀ c, pySpace (g c) = pySpace c) :
    ∀ l : List Char, splitRuns (l.map g) = (splitRuns l).map (List.map g) := by
  intro l
  induction l with
  | nil => rfl
  | cons c rest ih =>
    rw [List.map_cons, splitRuns_cons (g c) (rest.map g), ih, splitRuns_cons c rest]
    cases hs : splitRuns rest with
    | nil => rfl
    | cons q qs =>
      cases q with
      | nil =>
        dsimp only [List.map_cons, List.map_nil]
      | cons x xs =>
        dsimp only [List.map_cons]
        by_cases hcx : pySpace c = pySpace x
        · rw [if_pos (by rw [hg, hg]; exact hcx), if_pos hcx]
          dsimp only [List.map_cons]
        · rw [if_neg (by rw [hg, hg]; exact hcx), if_neg hcx]
          dsimp only [List.map_cons, List.map_nil]

theorem pyWords_map (g : Char → Char) (hg : ∀ c, pySpace (g c) = pySpace c)
    (hfix : ∀ c, pySpace c = false → g c = c) :
    ∀ l : List Char, pyWords (l.map g) = pyWords l := by
  intro l
  unfold pyWords
  rw [splitRuns_map g hg l]
  rw [List.filter_map]
  have hpred : ∀ r ∈ splitRuns l,
      ((fun r => !r.all pySpace) ∘ List.map g) r = (fun r => !r.all pySpace) r := by
    intro r _
    simp only [Function.comp_apply]
    rw [all_pySpace_map g hg r]
  rw [List.filter_congr hpred]
  have hid : ∀ r ∈ (splitRuns l).filter (fun r => !r.all pySpace), r.map g = r := by
    intro r hr
    rw [List.mem_filter] at hr
    have hhom := (splitRuns_runs_alt l).1 r hr.1
    have hword : r.all (fun x => !pySpace x) = true := by
      rcases hhom.2 with h | h
      · have h2 := hr.2
        rw [h] at h2
        simp at h2
      · exact h
    conv_rhs => rw [← List.map_id r]
    refine List.map_congr_left ?_
    intro c hc
    have hcf : pySpace c = false := by
      have := List.all_eq_true.mp hword c hc
      simpa using this
    simp [hfix c hcf]
  rw [List.map_congr_left hid]
  simp

/-- C4 (amended): for text containing no hyphen and no tab, whose
whitespace-separated words each fit within the wrap width, the wrapped
lines' words — in line order — are exactly the words of the original text:
no word is truncated, split, or duplicated, and wrapping breaks only at
whitespace.  (Hyphens are excluded because `break_on_hyphens` adds breaks
inside hyphenated words; long words are excluded because `break_long_words`
splits any word wider than the wrap width; whitespace outside the six ASCII
characters — code points like U+001C or U+00A0 that `str.strip` treats as
blank but textwrap's splitter does not — is excluded because such a
character forms its own chunk that the `drop_whitespace` tests delete or
keep depending on its position.) -/
theorem c4_amended_wrap_preserves_words (t : List Char) (width : Nat) (hw : 0 < width)
    (hlong : width < t.length)
    (hnohyphen : ∀ c ∈ t, c ≠ '-') (hnotab : ∀ c ∈ t, c ≠ '\t')
    (hascii : ∀ c ∈ t, pyIsSpace c = pySpace c)
    (hwords : ∀ w ∈ pyWords t, w.length ≤ width) :
    (pyWrap t width).flatMap pyWords = pyWords t := by
  have hg : ∀ c : Char, pySpace (if pySpace c then ' ' else c) = pySpace c := by
    intro c
    by_cases h : pySpace c = true
    · rw [if_pos h, h]; rfl
    · rw [if_neg h]
  have hfix : ∀ c : Char, pySpace c = false → (if pySpace c then ' ' else c) = c := by
    intro c h
    rw [if_neg (by rw [h]; exact Bool.false_ne_true)]
  have hmu : munge t = t.map (fun c => if pySpace c then ' ' else c) := by
    unfold munge
    rw [expandtabsGo_eq_self t hnotab 0]
  have hpwds : pyWords (munge t) = pyWords t := by
    rw [hmu]
    exact pyWords_map _ hg hfix t
  have hchunks := splitRuns_runs_alt (munge t)
  have hbound : ∀ c ∈ splitRuns (munge t),
      c.all (fun x => !pySpace x) = true → c.length ≤ width := by
    intro c hc hword
    have hcf : c ∈ pyWords (munge t) := by
      unfold pyWords
      rw [List.mem_filter]
      refine ⟨hc, ?_⟩
      have hcne := (hchunks.1 c hc).1
      cases hcc : c.all pySpace with
      | false => rfl
      | true => exact (ws_not_word c hcne hcc hword).elim
    rw [hpwds] at hcf
    exact hwords c hcf
  have hcharclean : ∀ d ∈ munge t, pyIsSpace d = pySpace d := by
    intro d hd
    rw [hmu] at hd
    obtain ⟨c, hct, hgc⟩ := List.mem_map.mp hd
    by_cases h : pySpace c = true
    · rw [← hgc, if_pos h]
      decide
    · rw [← hgc, if_neg h]
      exact hascii c hct
  have hclean : ∀ x ∈ splitRuns (munge t), x.all pyIsSpace = x.all pySpace := by
    intro x hx
    refine all_uni_eq_all_pySpace (fun d hd => hcharclean d ?_)
    rw [← (splitRuns_flatten_and_ne (munge t)).1]
    exact List.mem_flatten.mpr ⟨x, hx, hd⟩
  unfold pyWrap
  rw [wrapGo_words width hw (sumLen (splitRuns (munge t)) + (splitRuns (munge t)).length)
    (splitRuns (munge t)) false _ (Nat.le_refl _) (Nat.le_refl _) hchunks.1 hchunks.2 hbound
    hclean]
  rw [← hpwds]
  rfl

/-- C4 counterexample: a single 117-character word wrapped to the default
content width 116 is split across two lines (`break_long_words`), so the
wrapped output's words are not the original words. -/
theorem c4_counterexample :
    (116 < (List.replicate 117 'a').length) ∧
      (pyWrap (List.replicate 117 'a') (120 - 4)).flatMap pyWords ≠
        pyWords (List.replicate 117 'a') := by
  decide

/-- Witness for C4 (amended) at `t = "one two"`, width 5. -/
theorem c4_witness :
    (pyWrap (("one two").toList) 5).flatMap pyWords = pyWords (("one two").toList) :=
  c4_amended_wrap_preserves_words (("one two").toList) 5 (by decide) (by decide)
    (by decide) (by decide) (by decide) (by decide)
